import Mathlib

/-!
# Verification of the NEWWALLETS trade-monitor core

A shallow embedding, in Lean 4, of the core data structures and the
ingestion-cycle logic of `NEWWALLETS.py` (global Polymarket trade monitor):
the bounded dedup ring (`SeenRing`), the TTL wallet-age cache
(`WalletAgeCache`), the append-only trade store with backfill sweeper
(`LiveStore`), the rolling window aggregator (`RollingAccumulator`), and
the per-cycle fetch/normalize/dedupe/enrich/classify/persist pipeline of
`GlobalTradeFetcher.run`.

Conventions of the embedding:
* Python `float` money/quantity values are modelled as `ℚ`; epoch
  timestamps are modelled as integer seconds (`ℤ`), and the wall clock
  (`time.time()` / `now_utc()`) is an explicit `now : ℤ` parameter — it is
  taken to be constant within a single cycle body.
* Python dicts are modelled as association lists with unique keys,
  preserving insertion order (`lookupA` / `updA` / `eraseA` below mirror
  `d.get`, `d[k] = v` resp. `defaultdict` access, and `d.pop`).
* The external HTTP collaborators (`fetch_global_trades`,
  `fetch_earliest_activity_ts_quick`) are oracle parameters: a fetched
  batch is a `List RawTrade` argument, a wallet-history lookup is a
  function `String → Option ℤ`.
* ISO-rendered timestamp strings (`ts_to_iso`) carry no information beyond
  the timestamp itself; the `*_iso` fields are modelled as the underlying
  `Option ℤ` timestamp.
-/

/-- Python `str.lower()` (per-character ASCII lowering; wallet addresses,
transaction hashes and map keys are ASCII). Defined over the character
list so that concrete instances reduce in the kernel. -/
def pyLower (s : String) : String := ⟨s.data.map Char.toLower⟩

/-- Python `str.upper()` (per-character ASCII raising). -/
def pyUpper (s : String) : String := ⟨s.data.map Char.toUpper⟩

/-- Python `str.startswith(p)`. -/
def pyStarts (s p : String) : Bool := p.data.isPrefixOf s.data

/-- Association-list lookup, mirroring Python `dict.get` (keys are unique
in every map built by this development). -/
def lookupA {κ ν : Type} [DecidableEq κ] : List (κ × ν) → κ → Option ν
  | [], _ => none
  | (a, b) :: t, k => if k = a then some b else lookupA t k

/-- Association-list update-or-append, mirroring Python `d[k] = f d[k]`
with a `defaultdict` default `d₀`: the first entry with key `k` is updated
in place, otherwise `(k, f d₀)` is appended (insertion order preserved,
as in CPython dicts). -/
def updA {κ ν : Type} [DecidableEq κ] : List (κ × ν) → κ → (ν → ν) → ν → List (κ × ν)
  | [], k, f, d => [(k, f d)]
  | (a, b) :: t, k, f, d => if k = a then (a, f b) :: t else (a, b) :: updA t k f d

/-- Association-list removal, mirroring Python `d.pop(k, None)`. -/
def eraseA {κ ν : Type} [DecidableEq κ] (m : List (κ × ν)) (k : κ) : List (κ × ν) :=
  m.filter (fun p => decide (p.1 ≠ k))

@[simp] theorem lookupA_nil {κ ν : Type} [DecidableEq κ] (k : κ) :
    lookupA ([] : List (κ × ν)) k = none := rfl

@[simp] theorem lookupA_cons {κ ν : Type} [DecidableEq κ] (a : κ) (b : ν)
    (t : List (κ × ν)) (k : κ) :
    lookupA ((a, b) :: t) k = if k = a then some b else lookupA t k := rfl

theorem lookupA_updA_self {κ ν : Type} [DecidableEq κ] (m : List (κ × ν))
    (k : κ) (f : ν → ν) (d : ν) :
    lookupA (updA m k f d) k = some (f ((lookupA m k).getD d)) := by
  induction m with
  | nil => simp [updA]
  | cons p t ih =>
    obtain ⟨a, b⟩ := p
    by_cases h : k = a
    · subst h; simp [updA]
    · simp [updA, h, ih]

theorem lookupA_updA_ne {κ ν : Type} [DecidableEq κ] (m : List (κ × ν))
    (k k' : κ) (f : ν → ν) (d : ν) (h : k' ≠ k) :
    lookupA (updA m k f d) k' = lookupA m k' := by
  induction m with
  | nil => simp [updA, h]
  | cons p t ih =>
    obtain ⟨a, b⟩ := p
    by_cases hka : k = a
    · subst hka; simp [updA, h]
    · by_cases hk'a : k' = a
      · subst hk'a; simp [updA, hka]
      · simp [updA, hka, hk'a, ih]

theorem eraseA_cons {κ ν : Type} [DecidableEq κ] (a : κ) (b : ν)
    (t : List (κ × ν)) (k : κ) :
    eraseA ((a, b) :: t) k = if a = k then eraseA t k else (a, b) :: eraseA t k := by
  by_cases h : a = k <;> simp [eraseA, List.filter_cons, h]

theorem lookupA_eraseA_self {κ ν : Type} [DecidableEq κ] (m : List (κ × ν)) (k : κ) :
    lookupA (eraseA m k) k = none := by
  induction m with
  | nil => rfl
  | cons p t ih =>
    obtain ⟨a, b⟩ := p
    rw [eraseA_cons]
    by_cases h : a = k
    · simp [h, ih]
    · simp [h, Ne.symm h, ih]

theorem lookupA_eraseA_ne {κ ν : Type} [DecidableEq κ] (m : List (κ × ν))
    (k k' : κ) (h : k' ≠ k) :
    lookupA (eraseA m k) k' = lookupA m k' := by
  induction m with
  | nil => rfl
  | cons p t ih =>
    obtain ⟨a, b⟩ := p
    rw [eraseA_cons]
    by_cases hak : a = k
    · subst hak; simp [h, ih]
    · by_cases hk'a : k' = a
      · subst hk'a; simp [hak]
      · simp [hak, hk'a, ih]

/-! ## `parse_epoch_seconds_maybe_ms` (numeric branch)

```python
def parse_epoch_seconds_maybe_ms(x):
    if x is None: return None
    if isinstance(x, (int, float)):
        val = float(x)
        if val > 1e12: val /= 1e9
        elif val > 1e10: val /= 1e3
        return int(val)
    ...
```
Python `int()` truncates toward zero. -/

/-- Python `int(q)`: truncation toward zero (written over `Rat.num`/
`Rat.den` so that concrete instances reduce in the kernel; `pyTrunc_eq`
below states the floor/ceiling form). -/
def pyTrunc (q : ℚ) : ℤ := if q < 0 then -((-q).num / ((-q).den : ℤ)) else q.num / q.den

theorem pyTrunc_eq (q : ℚ) : pyTrunc q = if q < 0 then ⌈q⌉ else ⌊q⌋ := by
  unfold pyTrunc
  by_cases h : q < 0
  · simp only [h, if_true]
    rw [show ⌈q⌉ = -⌊-q⌋ by rw [Int.floor_neg, neg_neg], Rat.floor_def]
  · simp only [h, if_false]
    rw [Rat.floor_def]

/-- Numeric branch of `parse_epoch_seconds_maybe_ms`: the heuristic
seconds/milliseconds/nanoseconds disambiguation. `none` models a `None`
or non-numeric/unparseable input. -/
def parse_epoch_seconds_maybe_ms (x : Option ℚ) : Option ℤ :=
  match x with
  | none => none
  | some v =>
    let val : ℚ :=
      if v > 1000000000000 then v / 1000000000
      else if v > 10000000000 then v / 1000
      else v
    some (pyTrunc val)

/-! ## Normalization (`Trade`, `normalize_trade`) -/

/-- A raw trade object as returned by the data-api feed (the fields
`normalize_trade` reads from the JSON dict; a missing/null field is
`none`). -/
structure RawTrade where
  timestamp : Option ℚ
  price : Option ℚ
  size : Option ℚ
  side : Option String
  outcome : Option String
  outcomeIndex : Option ℤ
  transactionHash : Option String
  proxyWallet : Option String
  slug : Option String
deriving DecidableEq

/-- The normalized `Trade` dataclass (fields used by the cycle; `iso`,
`event_slug`, `condition_id`, `raw` are not read by any verified code
path, `iso` is carried as the timestamp itself). -/
structure Trade where
  ts : Option ℤ
  iso : Option ℤ
  side : Option String
  price : Option ℚ
  size : Option ℚ
  notional : Option ℚ
  outcome : Option String
  outcome_index : Option ℤ
  tx : Option String
  taker : Option String
  slug : Option String
deriving DecidableEq

/-- Embeds `normalize_trade`. -/
def normalize_trade (tr : RawTrade) : Trade :=
  let ts := parse_epoch_seconds_maybe_ms tr.timestamp
  let price := tr.price
  let size := tr.size
  let notional : Option ℚ :=
    match price, size with
    | some p, some s => some (p * s)
    | _, _ => none
  { ts := ts
    iso := ts
    side := tr.side.map pyUpper
    price := price
    size := size
    notional := notional
    outcome := tr.outcome
    outcome_index := tr.outcomeIndex
    tx := tr.transactionHash
    taker := tr.proxyWallet
    slug := tr.slug }

/-! ## `WalletAgeCache` -/

/-- The `WalletAgeRecord` dataclass. -/
structure WalletAgeRecord where
  earliest_ts : Option ℤ
  fetched_at : ℤ
deriving DecidableEq

/-- The `WalletAgeCache`: TTL-keyed map from lower-cased wallet address to its
earliest-known activity timestamp (plus fetch time). -/
structure WalletAgeCache where
  ttl : ℤ
  map : List (String × WalletAgeRecord)
deriving DecidableEq

/-- Embeds `WalletAgeCache.get`: `none` if never stored or if the entry's fetch
time exceeds the TTL from now (soft expiry — the entry itself stays). -/
def WalletAgeCache.get (c : WalletAgeCache) (now : ℤ) (addr : String) :
    Option WalletAgeRecord :=
  match lookupA c.map (pyLower addr) with
  | none => none
  | some r => if now - r.fetched_at > c.ttl then none else some r

/-- Embeds `WalletAgeCache.set`: unconditional overwrite, refreshing the fetch
time. -/
def WalletAgeCache.set (c : WalletAgeCache) (now : ℤ) (addr : String)
    (earliest_ts : Option ℤ) : WalletAgeCache :=
  { c with
    map := updA c.map (pyLower addr) (fun _ => ⟨earliest_ts, now⟩) ⟨earliest_ts, now⟩ }

/-- Embeds `WalletAgeCache.snapshot`: wallet → earliest_ts for every held entry,
ignoring TTL. -/
def WalletAgeCache.snapshot (c : WalletAgeCache) : List (String × Option ℤ) :=
  c.map.map (fun p => (p.1, p.2.earliest_ts))

/-- A fresh cache, as built by `WalletAgeCache(ttl_seconds=ttl)`. -/
def WalletAgeCache.mk0 (ttl : ℤ) : WalletAgeCache := ⟨ttl, []⟩

/-- Replay a history of `set` calls: each element is
`(now-at-call, addr, earliest_ts_or_null)`. -/
def applyCacheSets (c : WalletAgeCache) : List (ℤ × String × Option ℤ) → WalletAgeCache
  | [] => c
  | op :: rest => applyCacheSets (c.set op.1 op.2.1 op.2.2) rest

/-- The last `set` recorded for a given (already lower-cased) key in a
history of `set` calls: `(fetch time, value)`. -/
def lastSetFor (key : String) : List (ℤ × String × Option ℤ) → Option (ℤ × Option ℤ)
  | [] => none
  | op :: rest =>
    match lastSetFor key rest with
    | some x => some x
    | none => if pyLower op.2.1 = key then some (op.1, op.2.2) else none

/-! ## `SeenRing` -/

/-- The `SeenRing`: bounded FIFO dedup ring. The Python object keeps a deque
plus a mirror `set` holding exactly the deque's elements; the embedding
keeps the deque (`dq`, oldest element first) and reads membership and
size off it. -/
structure SeenRing where
  maxlen : ℕ
  dq : List String
deriving DecidableEq

/-- Embeds the constructor `SeenRing(maxlen)`. -/
def SeenRing.mk0 (maxlen : ℕ) : SeenRing := ⟨maxlen, []⟩

/-- Embeds `SeenRing.has`. -/
def SeenRing.has (r : SeenRing) (tx : String) : Bool := tx ∈ r.dq

/-- Embeds `SeenRing.add`: no-op if present; otherwise evict the oldest when at
capacity, then append. -/
def SeenRing.add (r : SeenRing) (tx : String) : SeenRing :=
  if r.has tx then r
  else if r.dq.length = r.maxlen then { r with dq := r.dq.tail ++ [tx] }
  else { r with dq := r.dq ++ [tx] }

/-- Embeds `SeenRing.size` (`len(self._set)`; the mirror set always holds
exactly the deque's — duplicate-free — elements). -/
def SeenRing.size (r : SeenRing) : ℕ := r.dq.length

/-- A sequence of `add` calls. -/
def SeenRing.addAll (r : SeenRing) : List String → SeenRing
  | [] => r
  | x :: t => (r.add x).addAll t

/-- The number of actual insertions (adds of identifiers not present at
the moment of their add) performed along a sequence of `add` calls. -/
def SeenRing.insertions (r : SeenRing) : List String → ℕ
  | [] => 0
  | x :: t => (if r.has x then 0 else 1) + (r.add x).insertions t

/-! ## Ledger records (`LiveStore`) -/

/-- An enriched ledger row, as built by `GlobalTradeFetcher.run` and
appended to `LiveStore.trades` (the `record = {...}` dict). -/
structure Rec where
  time : Option ℤ
  timestamp : Option ℤ
  side : Option String
  outcome : Option String
  price : Option ℚ
  size : Option ℚ
  notional : Option ℚ
  tx : String
  taker : String
  wallet_first_ts : Option ℤ
  wallet_first_iso : Option ℤ
  wallet_age_days : Option ℚ
  is_young : Bool
  slug : String
deriving DecidableEq

/-- Embeds `LiveStore.trim_history`: drop the oldest rows once the store exceeds
`history_max_rows` (`self.trades = self.trades[extra:]`). -/
def trim_history (trades : List Rec) (history_max_rows : ℕ) : List Rec :=
  trades.drop (trades.length - history_max_rows)

/-- One row of the `backfill_wallet_ages` sweep: patch
`wallet_first_ts` / `wallet_first_iso` / `wallet_age_days` when the row's
first-seen is null and the supplied mapping has a non-null value for the
row's (lower-cased) taker; the second component is the `patched`
increment (0 or 1). The row's `is_young` flag is deliberately left
untouched (see the source comment). -/
def patchRow (now : ℤ) (wallet_to_first_ts : List (String × Option ℤ)) (r : Rec) :
    Rec × ℕ :=
  let w := pyLower r.taker
  if w = "" then (r, 0)
  else if r.wallet_first_ts = none then
    match lookupA wallet_to_first_ts w with
    | some (some v) =>
      ({ r with
          wallet_first_ts := some v
          wallet_first_iso := some v
          wallet_age_days := some (((now : ℚ) - (v : ℚ)) / 86400) }, 1)
    | _ => (r, 0)
  else (r, 0)

/-- Embeds `LiveStore.backfill_wallet_ages`: sweep the most recent
`max_scan_rows` rows (the contiguous suffix starting at
`len - max_scan_rows`) and patch each of them with `patchRow`; returns the
patched store together with the number of patched rows. Rows are patched
independently, so the loop is the map/sum below. -/
def backfill_wallet_ages (trades : List Rec)
    (wallet_to_first_ts : List (String × Option ℤ)) (max_scan_rows : ℕ)
    (now : ℤ) : List Rec × ℕ :=
  let start := trades.length - max_scan_rows
  let suf := trades.drop start
  (trades.take start ++ suf.map (fun r => (patchRow now wallet_to_first_ts r).1),
   (suf.map (fun r => (patchRow now wallet_to_first_ts r).2)).sum)

/-! ## `RollingAccumulator` -/

/-- The `(wallet, outcome, slug)` aggregate key. -/
abbrev AccumKey := String × String × String

/-- The per-key running sums (`{"notional": ..., "qty": ..., "trades": ...}`). -/
structure Sums where
  notional : ℚ
  qty : ℚ
  trades : ℤ
deriving DecidableEq

/-- The key of a record: `(rec.get("taker") or "", str(rec.get("outcome")
or ""), str(rec.get("slug") or ""))`; `taker`/`slug` are plain strings in
a `Rec`, so only `outcome`'s null needs a default (a falsy `""` maps to
`""` either way). -/
def keyOf (r : Rec) : AccumKey := (r.taker, r.outcome.getD "", r.slug)

/-- The `RollingAccumulator`: a rolling deque of trades plus per-key running
sums. -/
structure RollingAccumulator where
  window_sec : ℤ
  dq : List Rec
  sums : List (AccumKey × Sums)
deriving DecidableEq

/-- Embeds the constructor `RollingAccumulator(window_sec)`. -/
def RollingAccumulator.mk0 (window_sec : ℤ) : RollingAccumulator :=
  ⟨window_sec, [], []⟩

/-- Embeds `RollingAccumulator.add_trade`: skip records without a timestamp;
otherwise append to the deque and bump the key's sums (missing/null
notional or size count as 0, exactly like `float(rec.get(...) or 0.0)`). -/
def RollingAccumulator.add_trade (a : RollingAccumulator) (r : Rec) :
    RollingAccumulator :=
  match r.timestamp with
  | none => a
  | some _ =>
    { a with
      dq := a.dq ++ [r]
      sums := updA a.sums (keyOf r)
        (fun s => ⟨s.notional + r.notional.getD 0, s.qty + r.size.getD 0, s.trades + 1⟩)
        ⟨0, 0, 0⟩ }

/-- The `0.00001` near-zero threshold used when deciding to drop a key. -/
def accumEps : ℚ := 1 / 100000

/-- Embeds `RollingAccumulator._pop_left_apply`: decrement the popped record's
contribution from its key's sums and drop the key entirely once all three
sums are (approximately) zero. -/
def popLeftApply (sums : List (AccumKey × Sums)) (r : Rec) :
    List (AccumKey × Sums) :=
  match lookupA sums (keyOf r) with
  | none => sums
  | some s =>
    let s2 : Sums :=
      ⟨s.notional - r.notional.getD 0, s.qty - r.size.getD 0, s.trades - 1⟩
    if s2.notional ≤ accumEps ∧ s2.qty ≤ accumEps ∧ s2.trades ≤ 0 then
      eraseA sums (keyOf r)
    else updA sums (keyOf r) (fun _ => s2) s2

/-- The `while self._dq and self._dq[0]["timestamp"] < cutoff: popleft`
loop of `purge_old` (a null front timestamp counts as 0, like
`(... or 0)`). -/
def purgeLoop (cutoff : ℤ) :
    List Rec → List (AccumKey × Sums) → List Rec × List (AccumKey × Sums)
  | [], m => ([], m)
  | r :: t, m =>
    if r.timestamp.getD 0 < cutoff then purgeLoop cutoff t (popLeftApply m r)
    else (r :: t, m)

/-- Embeds `RollingAccumulator.purge_old`. -/
def RollingAccumulator.purge_old (a : RollingAccumulator) (now_ts : ℤ) :
    RollingAccumulator :=
  let cutoff := now_ts - a.window_sec
  let p := purgeLoop cutoff a.dq a.sums
  { a with dq := p.1, sums := p.2 }

/-- Embeds `RollingAccumulator.debug_counts`: (number of distinct wallets among
the aggregate keys, number of aggregate keys). -/
def RollingAccumulator.debug_counts (a : RollingAccumulator) : ℕ × ℕ :=
  ((a.sums.map (fun p => p.1.1)).dedup.length, a.sums.length)

/-- One row of the `get_above_threshold_df` result. -/
structure OutRow where
  wallet : String
  outcome : String
  slug : String
  notional_24h : ℚ
  qty_24h : ℚ
  trades_24h : ℤ
  is_young : Bool
  wallet_first_ts : Option ℤ
  wallet_age_days : Option ℚ
deriving DecidableEq

/-- Embeds `wallet_age_map.get(wallet.lower())`: `none` both for an absent key
and for a stored null ("looked up, but unknown"). -/
def getAge (m : List (String × Option ℤ)) (w : String) : Option ℤ :=
  match lookupA m (pyLower w) with
  | none => none
  | some v => v

/-- The candidate row built from one aggregate entry by
`get_above_threshold_df` (threshold test, age resolution through the
supplied `wallet_age_map`, optimistic-young policy, `show_all_gray_old`
gate). -/
def rowOf (now : ℤ) (threshold : ℚ) (wallet_age_map : List (String × Option ℤ))
    (max_age_days : ℤ) (show_all_gray_old : Bool) (p : AccumKey × Sums) :
    Option OutRow :=
  let wallet := p.1.1
  let s := p.2
  if s.notional ≥ threshold then
    match getAge wallet_age_map wallet with
    | none =>
      some ⟨wallet, p.1.2.1, p.1.2.2, s.notional, s.qty, s.trades, true, none, none⟩
    | some e =>
      let is_young := decide (e ≥ now - max_age_days * 86400)
      if show_all_gray_old || is_young then
        some ⟨wallet, p.1.2.1, p.1.2.2, s.notional, s.qty, s.trades, is_young,
          some e, some (((now : ℚ) - (e : ℚ)) / 86400)⟩
      else none
  else none

/-- The `df.sort_values(["notional_24h","trades_24h"], ascending=[False,
False])` order: notional descending, ties broken by trade count
descending. -/
def rowLE (a b : OutRow) : Prop :=
  b.notional_24h < a.notional_24h ∨
    (a.notional_24h = b.notional_24h ∧ b.trades_24h ≤ a.trades_24h)

instance : DecidableRel rowLE := fun a b => by unfold rowLE; infer_instance

instance : IsTotal OutRow rowLE where
  total a b := by
    unfold rowLE
    rcases lt_trichotomy a.notional_24h b.notional_24h with h | h | h
    · exact Or.inr (Or.inl h)
    · rcases le_total a.trades_24h b.trades_24h with ht | ht
      · exact Or.inr (Or.inr ⟨h.symm, ht⟩)
      · exact Or.inl (Or.inr ⟨h, ht⟩)
    · exact Or.inl (Or.inl h)

instance : IsTrans OutRow rowLE where
  trans a b c hab hbc := by
    unfold rowLE at hab hbc ⊢
    rcases hab with h1 | ⟨e1, t1⟩ <;> rcases hbc with h2 | ⟨e2, t2⟩
    · exact Or.inl (h2.trans h1)
    · exact Or.inl (e2 ▸ h1)
    · exact Or.inl (e1 ▸ h2)
    · exact Or.inr ⟨e1.trans e2, t2.trans t1⟩

/-- Embeds `RollingAccumulator.get_above_threshold_df` (the resulting DataFrame
as its list of rows). The pandas sort is embedded as an insertion sort
for the same (total, transitive) descending order. -/
def RollingAccumulator.get_above_threshold_df (a : RollingAccumulator)
    (threshold : ℚ) (wallet_age_map : List (String × Option ℤ))
    (max_age_days : ℤ) (show_all_gray_old : Bool) (now : ℤ) : List OutRow :=
  List.insertionSort rowLE
    (a.sums.filterMap (rowOf now threshold wallet_age_map max_age_days show_all_gray_old))

/-! ## `GlobalTradeFetcher.run` (one cycle body)

The cycle is embedded as a pure fold over the fetched batch. External
collaborators appear as parameters: `rows` is the batch returned by
`fetch_global_trades`, `lookupFn` is `fetch_earliest_activity_ts_quick`
(returning the earliest activity timestamp or null), and `now` is the
wall clock during the cycle. -/

/-- Fetcher configuration (the constructor's clamped parameters that the
cycle body reads). -/
structure FetchCfg where
  max_age_days : ℤ
  max_lookups_per_cycle : ℕ
  history_max_rows : ℕ
deriving DecidableEq

/-- The mutable state threaded through one cycle's per-trade loop:
the shared components plus the cycle-local counters. -/
structure RunSt where
  seen : SeenRing
  trades : List Rec
  cache : WalletAgeCache
  accum : RollingAccumulator
  new_after_dedupe : ℕ
  appended : ℕ
  dropped_not_young : ℕ
  unknown_age_allowed : ℕ
  activity_lookups : ℕ
  lookups_left : ℕ
  first_ts_seen : Option ℤ
  last_ts_seen : Option ℤ
deriving DecidableEq

/-- The `first_ts_seen`/`last_ts_seen` running min/max updates performed
for every trade with a parseable timestamp. -/
def updTsSeen (st : RunSt) (tr : Trade) : RunSt :=
  match tr.ts with
  | none => st
  | some t =>
    { st with
      last_ts_seen :=
        some (match st.last_ts_seen with | none => t | some l => if t > l then t else l)
      first_ts_seen :=
        some (match st.first_ts_seen with | none => t | some f => if t < f then t else f) }

/-- The priority set computed at the top of each cycle: wallets of the
top `min(200, len(items))` aggregate entries ranked by descending current
notional (`sorted(..., reverse=True)` is a stable descending sort),
lower-cased, empty wallets dropped. -/
def priorityWallets (a : RollingAccumulator) : List String :=
  let items := List.insertionSort (fun x y => y.2.notional ≤ x.2.notional) a.sums
  (items.take (min 200 items.length)).filterMap
    (fun p => if p.1.1 = "" then none else some (pyLower p.1.1))

/-- The classify-and-persist tail of the per-trade loop body (from
`if earliest_ts_val is None: is_young = True ...` to
`self.accum.add_trade(record)`), given the enrichment outcome
`earliest`. -/
def classifyAppend (cfg : FetchCfg) (now : ℤ) (tr : Trade) (tx taker : String)
    (st : RunSt) (earliest : Option ℤ) : RunSt :=
  let st :=
    match earliest with
    | none => { st with unknown_age_allowed := st.unknown_age_allowed + 1 }
    | some _ => st
  let is_young : Bool :=
    match earliest with
    | none => true
    | some e => decide (e ≥ now - cfg.max_age_days * 86400)
  let age_days : Option ℚ :=
    match earliest with
    | none => none
    | some e => if e = 0 then none else some (((now : ℚ) - (e : ℚ)) / 86400)
  let outFallback : Option String :=
    match tr.outcome_index with
    | some i => some ("outcome[" ++ toString i ++ "]")
    | none => none
  let record : Rec :=
    { time := tr.iso
      timestamp := tr.ts
      side := tr.side
      outcome :=
        match tr.outcome with
        | some o => if o = "" then outFallback else some o
        | none => outFallback
      price := tr.price
      size := tr.size
      notional := tr.notional
      tx := tx
      taker := taker
      wallet_first_ts := earliest
      wallet_first_iso := earliest
      wallet_age_days := age_days
      is_young := is_young
      slug := tr.slug.getD "" }
  { st with
    trades := st.trades ++ [record]
    accum := st.accum.add_trade record
    appended := st.appended + 1 }

/-- Embeds `need_lookup = (rec is None) or (rec.earliest_ts is None)`. -/
def needLookup (r0 : Option WalletAgeRecord) : Bool :=
  match r0 with
  | none => true
  | some rr => decide (rr.earliest_ts = none)

/-- Embeds `earliest_ts_val = rec.earliest_ts if rec is not None else None`. -/
def cachedEarliest (r0 : Option WalletAgeRecord) : Option ℤ :=
  match r0 with
  | none => none
  | some rr => rr.earliest_ts

/-- One iteration of the `for tr_raw in reversed(rows):` loop:
normalize, track timestamps, skip malformed (falsy transaction id), skip
already-seen ids, register the id as seen, skip non-wallet takers, enrich
through cache and (budgeted, priority-gated) lookup, classify and
persist. -/
def processTrade (cfg : FetchCfg) (priority : List String)
    (lookupFn : String → Option ℤ) (now : ℤ) (st : RunSt) (tr_raw : RawTrade) :
    RunSt :=
  let tr := normalize_trade tr_raw
  let st := updTsSeen st tr
  match tr.tx with
  | none => st
  | some tx =>
    if tx = "" then st
    else if st.seen.has tx then st
    else
      let st :=
        { st with
          new_after_dedupe := st.new_after_dedupe + 1
          seen := st.seen.add tx }
      let taker := pyLower (tr.taker.getD "")
      if ¬ pyStarts taker "0x" then st
      else
        let r0 := st.cache.get now taker
        let earliest0 : Option ℤ := cachedEarliest r0
        let need_lookup : Bool := needLookup r0
        if need_lookup ∧ 0 < st.lookups_left ∧
            (taker ∈ priority ∨ st.lookups_left > cfg.max_lookups_per_cycle / 3) then
          let v := lookupFn taker
          classifyAppend cfg now tr tx taker
            { st with
              lookups_left := st.lookups_left - 1
              activity_lookups := st.activity_lookups + 1
              cache := st.cache.set now taker v } v
        else classifyAppend cfg now tr tx taker st earliest0

/-- The `cycle_heartbeat` payload. -/
structure CycleMetrics where
  fetched_rows : ℕ
  new_after_dedupe : ℕ
  appended : ℕ
  dropped_not_young : ℕ
  unknown_age_allowed : ℕ
  activity_lookups : ℕ
  lookups_budget_left : ℕ
  dedupe_size : ℕ
  first_ts : Option ℤ
  last_ts : Option ℤ
  max_ts_delta : Option ℤ
  no_progress_cycles : ℕ
  accum_window_sec : ℤ
  accum_unique_wallets : ℕ
  accum_unique_keys : ℕ
deriving DecidableEq

/-- The fetcher's cross-cycle state: the four shared components plus the
progress-tracking fields. -/
structure FetchSt where
  seen : SeenRing
  trades : List Rec
  cache : WalletAgeCache
  accum : RollingAccumulator
  last_max_ts : Option ℤ
  no_progress_cycles : ℕ
deriving DecidableEq

/-- One full cycle body of `GlobalTradeFetcher.run`: compute the priority
set, process the batch oldest-first, purge the window, trim the store,
update progress tracking and emit the heartbeat metrics. -/
def runCycle (cfg : FetchCfg) (lookupFn : String → Option ℤ) (now : ℤ)
    (rows : List RawTrade) (fs : FetchSt) : FetchSt × CycleMetrics :=
  let priority := priorityWallets fs.accum
  let st0 : RunSt :=
    { seen := fs.seen, trades := fs.trades, cache := fs.cache, accum := fs.accum
      new_after_dedupe := 0, appended := 0, dropped_not_young := 0
      unknown_age_allowed := 0, activity_lookups := 0
      lookups_left := cfg.max_lookups_per_cycle
      first_ts_seen := none, last_ts_seen := none }
  let st := rows.reverse.foldl (processTrade cfg priority lookupFn now) st0
  let accum2 := st.accum.purge_old now
  let trades2 := trim_history st.trades cfg.history_max_rows
  let curr_max_ts := st.last_ts_seen
  let no_prog : ℕ :=
    match curr_max_ts, fs.last_max_ts with
    | some c, some l => if c ≤ l then fs.no_progress_cycles + 1 else 0
    | _, _ => 0
  let max_delta : Option ℤ :=
    match curr_max_ts, fs.last_max_ts with
    | some c, some l => some (c - l)
    | _, _ => none
  let last_max : Option ℤ :=
    match curr_max_ts with
    | some c => some c
    | none => fs.last_max_ts
  let dc := accum2.debug_counts
  ({ seen := st.seen, trades := trades2, cache := st.cache, accum := accum2
     last_max_ts := last_max, no_progress_cycles := no_prog },
   { fetched_rows := rows.length
     new_after_dedupe := st.new_after_dedupe
     appended := st.appended
     dropped_not_young := st.dropped_not_young
     unknown_age_allowed := st.unknown_age_allowed
     activity_lookups := st.activity_lookups
     lookups_budget_left := cfg.max_lookups_per_cycle - st.activity_lookups
     dedupe_size := st.seen.size
     first_ts := st.first_ts_seen
     last_ts := st.last_ts_seen
     max_ts_delta := max_delta
     no_progress_cycles := no_prog
     accum_window_sec := accum2.window_sec
     accum_unique_wallets := dc.1
     accum_unique_keys := dc.2 })

/-- Successive cycles of the forever loop, each with its own wall-clock
time and fetched batch. -/
def runCycles (cfg : FetchCfg) (lookupFn : String → Option ℤ) :
    List (ℤ × List RawTrade) → FetchSt → FetchSt
  | [], fs => fs
  | (now, rows) :: rest, fs =>
    runCycles cfg lookupFn rest (runCycle cfg lookupFn now rows fs).1

/-- The process's initial state: freshly constructed `LiveStore` (with
its `SeenRing`), `WalletAgeCache` and `RollingAccumulator`. -/
def initFetchSt (seen_max : ℕ) (ttl : ℤ) (window_sec : ℤ) : FetchSt :=
  { seen := SeenRing.mk0 seen_max
    trades := []
    cache := WalletAgeCache.mk0 ttl
    accum := RollingAccumulator.mk0 window_sec
    last_max_ts := none
    no_progress_cycles := 0 }


/-! ## Claim theorems and supporting lemmas -/

/-- Claim **C7** (code bug evidence). The timestamp heuristic does not
round-trip the three encodings of one era instant: for the epoch second
1760000000 (October 2025), the seconds encoding and the nanoseconds
encoding both parse to 1760000000, but the milliseconds encoding
1760000000000 exceeds the `1e12` threshold, is divided by `1e9` as if it
were nanoseconds, and parses to 1760 instead of 1760000000. -/
theorem parse_epoch_ms_misscaled :
    parse_epoch_seconds_maybe_ms (some 1760000000) = some 1760000000 ∧
    parse_epoch_seconds_maybe_ms (some 1760000000000000000) = some 1760000000 ∧
    parse_epoch_seconds_maybe_ms (some 1760000000000) = some 1760 ∧
    (1760 : ℤ) ≠ 1760000000 := by
  refine ⟨?_, ?_, ?_, by decide⟩ <;>
    simp only [parse_epoch_seconds_maybe_ms] <;>
    norm_num [pyTrunc_eq]

theorem lookupA_map_val {κ ν ν2 : Type} [DecidableEq κ] (m : List (κ × ν))
    (g : ν → ν2) (k : κ) :
    lookupA (m.map (fun p => (p.1, g p.2))) k = (lookupA m k).map g := by
  induction m with
  | nil => rfl
  | cons p t ih =>
    obtain ⟨a, b⟩ := p
    by_cases h : k = a <;> simp [h, ih]

theorem ttl_applyCacheSets (ops : List (ℤ × String × Option ℤ)) (c : WalletAgeCache) :
    (applyCacheSets c ops).ttl = c.ttl := by
  induction ops generalizing c with
  | nil => rfl
  | cons op rest ih => exact (ih _).trans rfl

theorem lookupA_applyCacheSets (ops : List (ℤ × String × Option ℤ))
    (c : WalletAgeCache) (key : String) :
    lookupA (applyCacheSets c ops).map key =
      match lastSetFor key ops with
      | some x => some ⟨x.2, x.1⟩
      | none => lookupA c.map key := by
  induction ops generalizing c with
  | nil => rfl
  | cons op rest ih =>
    obtain ⟨t0, a0, v0⟩ := op
    simp only [applyCacheSets, lastSetFor]
    rw [ih]
    cases h : lastSetFor key rest with
    | some x => rfl
    | none =>
      by_cases hk : pyLower a0 = key
      · simp only [hk, if_true, WalletAgeCache.set]
        rw [← hk, lookupA_updA_self]
      · simp only [hk, if_false, WalletAgeCache.set]
        exact lookupA_updA_ne _ _ _ _ _ (fun hh => hk hh.symm)

theorem lookupA_snapshot (c : WalletAgeCache) (k : String) :
    lookupA c.snapshot k = (lookupA c.map k).map WalletAgeRecord.earliest_ts :=
  lookupA_map_val c.map _ k

/-- Claim **C6** (confirmed). `AgeCache` contract, relative to an arbitrary
history of `set` calls on a fresh cache: if no `set` ever targeted the
wallet's (lower-cased) key, `get` misses and `snapshot` has no entry for
it; if the last `set` for the key stored value `v` at time `t`, then `get`
at `now` returns the entry exactly when `now - t ≤ ttl` (fetch time
refreshed by the unconditional overwrite), while `snapshot` returns
`v` regardless of TTL. The final conjunct is Scenario C: TTL=60,
`set("0xabc", 1000)` at t=0; `get` at t=30 hits with earliest_ts=1000,
`get` at t=61 misses, `snapshot` at t=61 still holds 1000. -/
theorem age_cache_ttl_contract (ttl now : ℤ) (ops : List (ℤ × String × Option ℤ))
    (addr : String) :
    (lastSetFor (pyLower addr) ops = none →
      (applyCacheSets (WalletAgeCache.mk0 ttl) ops).get now addr = none ∧
      lookupA (applyCacheSets (WalletAgeCache.mk0 ttl) ops).snapshot (pyLower addr) = none) ∧
    (∀ t v, lastSetFor (pyLower addr) ops = some (t, v) →
      (applyCacheSets (WalletAgeCache.mk0 ttl) ops).get now addr =
        (if now - t > ttl then none else some ⟨v, t⟩) ∧
      lookupA (applyCacheSets (WalletAgeCache.mk0 ttl) ops).snapshot (pyLower addr) = some v) ∧
    ((applyCacheSets (WalletAgeCache.mk0 60) [(0, "0xabc", some 1000)]).get 30 "0xabc" =
        some ⟨some 1000, 0⟩ ∧
      (applyCacheSets (WalletAgeCache.mk0 60) [(0, "0xabc", some 1000)]).get 61 "0xabc" = none ∧
      lookupA (applyCacheSets (WalletAgeCache.mk0 60) [(0, "0xabc", some 1000)]).snapshot
        "0xabc" = some (some 1000)) := by
  refine ⟨?_, ?_, by decide, by decide, by decide⟩
  · intro h
    constructor
    · unfold WalletAgeCache.get
      rw [lookupA_applyCacheSets, h]
      rfl
    · rw [lookupA_snapshot, lookupA_applyCacheSets, h]
      rfl
  · intro t v h
    constructor
    · unfold WalletAgeCache.get
      rw [lookupA_applyCacheSets, h, ttl_applyCacheSets]
      rfl
    · rw [lookupA_snapshot, lookupA_applyCacheSets, h]
      rfl

/-- Witness for `age_cache_ttl_contract` at a concrete history. -/
theorem age_cache_ttl_contract_witness :
    (applyCacheSets (WalletAgeCache.mk0 60) [(0, "0xabc", some 1000)]).get 30 "0xabc" =
      (if (30 : ℤ) - 0 > 60 then none else some ⟨some 1000, 0⟩) ∧
    lookupA (applyCacheSets (WalletAgeCache.mk0 60) [(0, "0xabc", some 1000)]).snapshot
      (pyLower "0xabc") = some (some 1000) :=
  (age_cache_ttl_contract 60 30 [(0, "0xabc", some 1000)] "0xabc").2.1 0 (some 1000)
    (by decide)

/-! ### C9: `SeenRing` -/

theorem SeenRing.has_iff (r : SeenRing) (x : String) : r.has x = true ↔ x ∈ r.dq := by
  simp [SeenRing.has]

theorem SeenRing.add_of_has (r : SeenRing) (x : String) (h : r.has x = true) :
    r.add x = r := by
  simp [SeenRing.add, h]

theorem SeenRing.add_maxlen (r : SeenRing) (x : String) :
    (r.add x).maxlen = r.maxlen := by
  unfold SeenRing.add
  split <;> [rfl; split <;> rfl]

theorem SeenRing.addAll_maxlen (ys : List String) (r : SeenRing) :
    (r.addAll ys).maxlen = r.maxlen := by
  induction ys generalizing r with
  | nil => rfl
  | cons y t ih => rw [SeenRing.addAll, ih, SeenRing.add_maxlen]

theorem SeenRing.mem_add_dq (r : SeenRing) (x y : String)
    (h : y ∈ (r.add x).dq) : y ∈ r.dq ∨ y = x := by
  unfold SeenRing.add at h
  split at h
  · exact Or.inl h
  · split at h
    · rcases List.mem_append.mp h with h1 | h1
      · exact Or.inl (List.mem_of_mem_tail h1)
      · exact Or.inr (List.mem_singleton.mp h1)
    · rcases List.mem_append.mp h with h1 | h1
      · exact Or.inl h1
      · exact Or.inr (List.mem_singleton.mp h1)

theorem SeenRing.not_mem_addAll (ys : List String) (r : SeenRing) (x : String)
    (hx : x ∉ r.dq) (hys : x ∉ ys) : x ∉ (r.addAll ys).dq := by
  induction ys generalizing r with
  | nil => exact hx
  | cons y t ih =>
    have hxy : x ≠ y := fun he => hys (he ▸ List.mem_cons_self _ _)
    have hxt : x ∉ t := fun hm => hys (List.mem_cons_of_mem _ hm)
    refine ih (r.add y) ?_ hxt
    intro hmem
    rcases SeenRing.mem_add_dq r y x hmem with h1 | h1
    · exact hx h1
    · exact hxy h1

theorem SeenRing.add_preserves (r : SeenRing) (x : String)
    (hnd : r.dq.Nodup) (hlen : r.dq.length ≤ r.maxlen) (hne : r.dq ≠ [] ∨ 0 < r.maxlen) :
    (r.add x).dq.Nodup ∧ (r.add x).dq.length ≤ r.maxlen := by
  by_cases h : r.has x
  · rw [SeenRing.add_of_has r x h]; exact ⟨hnd, hlen⟩
  · have hx : x ∉ r.dq := by simpa [SeenRing.has] using h
    unfold SeenRing.add
    simp only [h, Bool.false_eq_true, if_false]
    by_cases hfull : r.dq.length = r.maxlen
    · have hpos : 0 < r.dq.length := by
        rcases hne with h1 | h1
        · exact List.length_pos.mpr h1
        · omega
      simp only [hfull, if_true]
      constructor
      · have hndt : r.dq.tail.Nodup := hnd.tail
        have hxt : x ∉ r.dq.tail := fun hm => hx (List.mem_of_mem_tail hm)
        simp [List.nodup_append, hndt, hxt]
      · simp only [List.length_append, List.length_tail, List.length_singleton]
        omega
    · simp only [hfull, if_false]
      constructor
      · simp [List.nodup_append, hnd, hx]
      · simp only [List.length_append, List.length_singleton]
        omega

theorem SeenRing.addAll_preserves (ys : List String) (r : SeenRing)
    (h0 : 0 < r.maxlen) (hnd : r.dq.Nodup) (hlen : r.dq.length ≤ r.maxlen) :
    (r.addAll ys).dq.Nodup ∧ (r.addAll ys).dq.length ≤ (r.addAll ys).maxlen := by
  induction ys generalizing r with
  | nil => exact ⟨hnd, by rw [SeenRing.addAll]; exact hlen⟩
  | cons y t ih =>
    have hstep := SeenRing.add_preserves r y hnd hlen (Or.inr h0)
    have h0' : 0 < (r.add y).maxlen := by rw [SeenRing.add_maxlen]; exact h0
    have := ih (r.add y) h0' hstep.1 (by rw [SeenRing.add_maxlen]; exact hstep.2)
    exact this

/-- The FIFO survival count: with `x` sitting in the ring at distance
`suf.length` from the newest end, `x` is still present after a sequence
of subsequent adds (none of them `x` itself) exactly when fewer than
`maxlen - suf.length` actual insertions happened. -/
theorem seenring_fifo_aux (ys : List String) :
    ∀ (s : SeenRing) (x : String), x ∉ ys → s.dq.Nodup →
    s.dq.length ≤ s.maxlen →
    ∀ pre suf, s.dq = pre ++ x :: suf →
    (((s.addAll ys).has x = true) ↔ suf.length + s.insertions ys < s.maxlen) := by
  induction ys with
  | nil =>
    intro s x _ hnd hlen pre suf hdq
    have hx : x ∈ s.dq := hdq ▸ List.mem_append_right _ (List.mem_cons_self _ _)
    have hsuf : suf.length < s.maxlen := by
      rw [hdq] at hlen; simp only [List.length_append, List.length_cons] at hlen; omega
    simp only [SeenRing.addAll, SeenRing.insertions, Nat.add_zero]
    simp [SeenRing.has, hx, hsuf]
  | cons y t ih =>
    intro s x hxys hnd hlen pre suf hdq
    have hxt : x ∉ t := fun hm => hxys (List.mem_cons_of_mem _ hm)
    have hxmem : x ∈ s.dq := hdq ▸ List.mem_append_right _ (List.mem_cons_self _ _)
    by_cases hy : s.has y
    · have hins : s.insertions (y :: t) = s.insertions t := by
        simp [SeenRing.insertions, hy, SeenRing.add_of_has s y hy]
      have hall : s.addAll (y :: t) = s.addAll t := by
        rw [SeenRing.addAll, SeenRing.add_of_has s y hy]
      rw [hall, hins]
      exact ih s x hxt hnd hlen pre suf hdq
    · have hynot : y ∉ s.dq := by simpa [SeenRing.has] using hy
      have hxy : x ≠ y := fun he => hynot (he ▸ hxmem)
      have hins : s.insertions (y :: t) = 1 + (s.add y).insertions t := by
        simp [SeenRing.insertions, hy]
      have hall : s.addAll (y :: t) = (s.add y).addAll t := rfl
      rw [hall, hins]
      by_cases hfull : s.dq.length = s.maxlen
      · have hadd : (s.add y).dq = s.dq.tail ++ [y] := by
          simp [SeenRing.add, hy, hfull]
        cases pre with
        | nil =>
          have hdq2 : (s.add y).dq = suf ++ [y] := by rw [hadd, hdq]; rfl
          have hxnot : x ∉ (s.add y).dq := by
            rw [hdq2]
            intro hmem
            rcases List.mem_append.mp hmem with h1 | h1
            · rw [hdq] at hnd
              exact (List.nodup_cons.mp (by simpa using hnd)).1 h1
            · exact hxy (List.mem_singleton.mp h1)
          have hfalse : x ∉ ((s.add y).addAll t).dq :=
            SeenRing.not_mem_addAll t (s.add y) x hxnot hxt
          have hlenN : s.maxlen = suf.length + 1 := by
            rw [← hfull, hdq]; simp
          constructor
          · intro hhas
            exact absurd ((SeenRing.has_iff _ _).mp hhas) hfalse
          · intro harith
            omega
        | cons z pre2 =>
          have hdq2 : (s.add y).dq = pre2 ++ x :: (suf ++ [y]) := by
            rw [hadd, hdq]; simp
          have hnd2 : (s.add y).dq.Nodup := by
            rw [hadd]
            have hndt : s.dq.tail.Nodup := hnd.tail
            have hyt : y ∉ s.dq.tail := fun hm => hynot (List.mem_of_mem_tail hm)
            simp [List.nodup_append, hndt, hyt]
          have hlen2 : (s.add y).dq.length ≤ (s.add y).maxlen := by
            rw [hadd, SeenRing.add_maxlen]
            have : 0 < s.dq.length := by rw [hdq]; simp
            simp only [List.length_append, List.length_tail, List.length_singleton]
            omega
          have h2 := ih (s.add y) x hxt hnd2 hlen2 pre2 (suf ++ [y]) hdq2
          rw [SeenRing.add_maxlen] at h2
          rw [h2]
          simp only [List.length_append, List.length_singleton]
          omega
      · have hadd : (s.add y).dq = s.dq ++ [y] := by
          simp [SeenRing.add, hy, hfull]
        have hdq2 : (s.add y).dq = pre ++ x :: (suf ++ [y]) := by
          rw [hadd, hdq]; simp
        have hnd2 : (s.add y).dq.Nodup := by
          rw [hadd]; simp [List.nodup_append, hnd, hynot]
        have hlen2 : (s.add y).dq.length ≤ (s.add y).maxlen := by
          rw [hadd, SeenRing.add_maxlen]
          simp only [List.length_append, List.length_singleton]
          omega
        have h2 := ih (s.add y) x hxt hnd2 hlen2 pre (suf ++ [y]) hdq2
        rw [SeenRing.add_maxlen] at h2
        rw [h2]
        simp only [List.length_append, List.length_singleton]
        omega

/-- Claim **C9** (confirmed). The `DedupSet` contract. (1) `add` is idempotent:
after the first `add(x)`, `has(x)` holds and any further `add(x)` changes
nothing (in particular `size()` stays the same). (2) Strict FIFO
eviction: starting from any reachable ring of capacity `N > 0`, if `x` is
admitted while absent, then after any further sequence of adds not
containing `x` itself, `has(x)` still holds exactly when fewer than `N`
of those adds were actual insertions of absent identifiers — i.e. `x` is
evicted precisely by the `N`-th subsequent distinct insertion, the
`(N+1)`-th counting `x`'s own admission. (3) Scenario A: capacity 3,
adding "a","b","c","d" leaves `has("a")` false, `has` of "b","c","d"
true, and `size() = 3`. -/
theorem seen_ring_fifo_contract :
    (∀ (r : SeenRing) (x : String),
      (r.add x).has x = true ∧ (r.add x).add x = r.add x ∧
      ((r.add x).add x).size = (r.add x).size) ∧
    (∀ (N : ℕ) (pre ys : List String) (x : String), 0 < N → x ∉ ys →
      ((SeenRing.mk0 N).addAll pre).has x = false →
      (((((SeenRing.mk0 N).addAll pre).add x).addAll ys).has x = true ↔
        (((SeenRing.mk0 N).addAll pre).add x).insertions ys < N)) ∧
    (((SeenRing.mk0 3).addAll ["a", "b", "c", "d"]).has "a" = false ∧
      ((SeenRing.mk0 3).addAll ["a", "b", "c", "d"]).has "b" = true ∧
      ((SeenRing.mk0 3).addAll ["a", "b", "c", "d"]).has "c" = true ∧
      ((SeenRing.mk0 3).addAll ["a", "b", "c", "d"]).has "d" = true ∧
      ((SeenRing.mk0 3).addAll ["a", "b", "c", "d"]).size = 3) := by
  refine ⟨?_, ?_, by decide, by decide, by decide, by decide, by decide⟩
  · intro r x
    have hmem : x ∈ (r.add x).dq := by
      unfold SeenRing.add
      split
      · next h => exact (SeenRing.has_iff r x).mp h
      · split <;> exact List.mem_append_right _ (List.mem_singleton.mpr rfl)
    have hhas : (r.add x).has x = true := (SeenRing.has_iff _ _).mpr hmem
    exact ⟨hhas, SeenRing.add_of_has _ _ hhas, by rw [SeenRing.add_of_has _ _ hhas]⟩
  · intro N pre ys x hN hxys hhas
    set s := (SeenRing.mk0 N).addAll pre with hs
    have hmax : s.maxlen = N := by rw [hs, SeenRing.addAll_maxlen]; rfl
    have hinv := SeenRing.addAll_preserves pre (SeenRing.mk0 N) hN (by constructor) (by simp [SeenRing.mk0])
    rw [← hs] at hinv
    have hxnot : x ∉ s.dq := by
      intro hm
      rw [(SeenRing.has_iff s x).mpr hm] at hhas
      exact Bool.true_eq_false.mp hhas
    have hinv2 := SeenRing.add_preserves s x hinv.1 (by rw [hmax] at hinv ⊢; exact hinv.2)
      (Or.inr (by rw [hmax]; exact hN))
    have hmax2 : (s.add x).maxlen = N := by rw [SeenRing.add_maxlen, hmax]
    have hlen2 : (s.add x).dq.length ≤ (s.add x).maxlen := by
      rw [hmax2, ← hmax]; exact hinv2.2
    have hdecomp : ∃ pre2, (s.add x).dq = pre2 ++ x :: [] := by
      unfold SeenRing.add
      simp only [hhas, Bool.false_eq_true, if_false]
      by_cases hfull : s.dq.length = s.maxlen
      · exact ⟨s.dq.tail, by simp [hfull]⟩
      · exact ⟨s.dq, by simp [hfull]⟩
    obtain ⟨pre2, hpre2⟩ := hdecomp
    have h2 := seenring_fifo_aux ys (s.add x) x hxys hinv2.1 hlen2 pre2 [] hpre2
    rw [hmax2] at h2
    simpa using h2

/-- Witness for `seen_ring_fifo_contract`: capacity 3, admit "a" into the
empty ring, then add "b","c","d" — the three subsequent insertions reach
the capacity and the equivalence is instantiated concretely. -/
theorem seen_ring_fifo_contract_witness :
    ((((SeenRing.mk0 3).addAll []).add "a").addAll ["b", "c", "d"]).has "a" = true ↔
      (((SeenRing.mk0 3).addAll []).add "a").insertions ["b", "c", "d"] < 3 :=
  seen_ring_fifo_contract.2.1 3 [] ["b", "c", "d"] "a" (by decide) (by decide) (by decide)

/-! ### C3: `backfill_wallet_ages` -/

theorem patchRow_of_some (now : ℤ) (m : List (String × Option ℤ)) (r : Rec)
    (h : r.wallet_first_ts ≠ none) : patchRow now m r = (r, 0) := by
  unfold patchRow
  by_cases hw : pyLower r.taker = ""
  · simp [hw]
  · simp [hw, h]

theorem patchRow_is_young (now : ℤ) (m : List (String × Option ℤ)) (r : Rec) :
    ((patchRow now m r).1).is_young = r.is_young := by
  unfold patchRow
  by_cases hw : pyLower r.taker = ""
  · simp [hw]
  · by_cases hf : r.wallet_first_ts = none
    · simp only [hw, if_false, hf, if_true]
      cases hl : lookupA m (pyLower r.taker) with
      | none => rfl
      | some v => cases v <;> rfl
    · simp [hw, hf]

theorem patchRow_cases (now : ℤ) (m : List (String × Option ℤ)) (r : Rec) :
    patchRow now m r = (r, 0) ∨
    (∃ v : ℤ, r.wallet_first_ts = none ∧
      lookupA m (pyLower r.taker) = some (some v) ∧
      patchRow now m r =
        ({ r with
            wallet_first_ts := some v
            wallet_first_iso := some v
            wallet_age_days := some (((now : ℚ) - (v : ℚ)) / 86400) }, 1)) := by
  unfold patchRow
  by_cases hw : pyLower r.taker = ""
  · exact Or.inl (by simp [hw])
  · by_cases hf : r.wallet_first_ts = none
    · cases hl : lookupA m (pyLower r.taker) with
      | none => exact Or.inl (by simp [hw, hf, hl])
      | some v =>
        cases v with
        | none => exact Or.inl (by simp [hw, hf, hl])
        | some ts => exact Or.inr ⟨ts, hf, rfl, by simp [hw, hf, hl]⟩
    · exact Or.inl (by simp [hw, hf])

theorem patchRow_fst_taker (now : ℤ) (m : List (String × Option ℤ)) (r : Rec) :
    ((patchRow now m r).1).taker = r.taker := by
  rcases patchRow_cases now m r with h | ⟨v, _, _, h⟩ <;> rw [h]

theorem patchRow_snd_eq (now : ℤ) (m : List (String × Option ℤ)) (r : Rec) :
    (patchRow now m r).2 = if (patchRow now m r).1 = r then 0 else 1 := by
  rcases patchRow_cases now m r with h | ⟨v, hf, _, h⟩
  · rw [h]; simp
  · rw [h]
    have hne : ({ r with
        wallet_first_ts := some v
        wallet_first_iso := some v
        wallet_age_days := some (((now : ℚ) - (v : ℚ)) / 86400) } : Rec) ≠ r := by
      intro he
      have : some v = r.wallet_first_ts := congrArg Rec.wallet_first_ts he
      rw [hf] at this
      exact Option.noConfusion this
    simp [hne]

theorem patchRow_of_empty (now : ℤ) (m : List (String × Option ℤ)) (r : Rec)
    (hw : pyLower r.taker = "") : patchRow now m r = (r, 0) := by
  unfold patchRow; simp [hw]

theorem patchRow_of_nolookup (now : ℤ) (m : List (String × Option ℤ)) (r : Rec)
    (hf : r.wallet_first_ts = none)
    (hl : lookupA m (pyLower r.taker) = none ∨ lookupA m (pyLower r.taker) = some none) :
    patchRow now m r = (r, 0) := by
  unfold patchRow
  by_cases hw : pyLower r.taker = ""
  · simp [hw]
  · rcases hl with hl | hl <;> simp [hw, hf, hl]

theorem patchRow_idem (now now2 : ℤ) (m : List (String × Option ℤ)) (r : Rec) :
    (patchRow now2 m (patchRow now m r).1).2 = 0 := by
  by_cases hw : pyLower r.taker = ""
  · rw [patchRow_of_empty now m r hw, patchRow_of_empty now2 m r hw]
  · by_cases hf : r.wallet_first_ts = none
    · cases hl : lookupA m (pyLower r.taker) with
      | none =>
        rw [patchRow_of_nolookup now m r hf (Or.inl hl),
          patchRow_of_nolookup now2 m r hf (Or.inl hl)]
      | some v =>
        cases v with
        | none =>
          rw [patchRow_of_nolookup now m r hf (Or.inr hl),
            patchRow_of_nolookup now2 m r hf (Or.inr hl)]
        | some ts =>
          have h : patchRow now m r =
              ({ r with
                  wallet_first_ts := some ts
                  wallet_first_iso := some ts
                  wallet_age_days := some (((now : ℚ) - (ts : ℚ)) / 86400) }, 1) := by
            unfold patchRow; simp [hw, hf, hl]
          rw [h]
          exact congrArg Prod.snd (patchRow_of_some now2 m _ (by simp))
    · rw [patchRow_of_some now m r hf, patchRow_of_some now2 m r hf]



theorem backfill_length (L : List Rec) (m : List (String × Option ℤ)) (k : ℕ) (now : ℤ) :
    (backfill_wallet_ages L m k now).1.length = L.length := by
  simp only [backfill_wallet_ages, List.length_append, List.length_take,
    List.length_map, List.length_drop]
  omega

theorem backfill_get (L : List Rec) (m : List (String × Option ℤ)) (k : ℕ) (now : ℤ)
    (i : ℕ) (hi : i < L.length) (hi2 : i < (backfill_wallet_ages L m k now).1.length) :
    (backfill_wallet_ages L m k now).1.get ⟨i, hi2⟩ =
      if i < L.length - k then L.get ⟨i, hi⟩
      else (patchRow now m (L.get ⟨i, hi⟩)).1 := by
  simp only [backfill_wallet_ages] at hi2 ⊢
  rw [List.get_eq_getElem, List.get_eq_getElem]
  by_cases h : i < L.length - k
  · rw [List.getElem_append_left (by simp; omega)]
    simp only [List.getElem_take]
    simp [h]
  · rw [List.getElem_append_right (by simp; omega)]
    simp only [List.getElem_map, List.getElem_drop]
    have harith : L.length - k + (i - (L.take (L.length - k)).length) = i := by
      simp only [List.length_take]
      omega
    simp only [harith]
    simp [h]

theorem sum_patch_counts (now : ℤ) (m : List (String × Option ℤ)) (l : List Rec) :
    (l.map (fun r => (patchRow now m r).2)).sum =
      l.countP (fun r => decide ((patchRow now m r).1 ≠ r)) := by
  induction l with
  | nil => rfl
  | cons r t ih =>
    simp only [List.map_cons, List.sum_cons, List.countP_cons, ih, patchRow_snd_eq now m r]
    by_cases h : (patchRow now m r).1 = r
    · simp [h]
    · simp [h]
      omega


/-- The single-row ledger of Scenario D: wallet "0xdef", wallet-first-seen
still unknown. -/
def scenarioDRec : Rec :=
  { time := none, timestamp := some 1000, side := none, outcome := none
    price := none, size := none, notional := none, tx := "t1", taker := "0xdef"
    wallet_first_ts := none, wallet_first_iso := none, wallet_age_days := none
    is_young := true, slug := "m" }

/-- Claim **C3** (confirmed). The backfill sweep contract: (1) the row count is
unchanged and (2) rows before the `len - maxScanRows` suffix boundary are
untouched; for every index, (3) a row whose wallet-first-seen is already
non-null is returned unchanged, (4) the young/old classification is never
changed, and (5) any row that is changed at all was a null-first-seen row
inside the scanned suffix whose (lower-cased) wallet has a non-null value
in the supplied mapping, and the change is exactly: first-seen set to the
mapped value and age-in-days recomputed as `(now − newFirstSeen)/86400`;
(6) the returned count is the number of changed rows (all inside the
scanned suffix); (7) a second sweep over the result patches nothing; and
(8) Scenario D concretely: one record with null first-seen for wallet
"0xdef" and mapping `{"0xdef": 500}` yields patchedCount 1 with first-seen
500 and recomputed age, and a second identical call returns 0. -/
theorem backfill_ages_contract (L : List Rec) (m : List (String × Option ℤ))
    (k : ℕ) (now now2 : ℤ) :
    (backfill_wallet_ages L m k now).1.length = L.length ∧
    (backfill_wallet_ages L m k now).1.take (L.length - k) = L.take (L.length - k) ∧
    (∀ i (hi : i < L.length) (hi2 : i < (backfill_wallet_ages L m k now).1.length),
      ((L.get ⟨i, hi⟩).wallet_first_ts ≠ none →
        (backfill_wallet_ages L m k now).1.get ⟨i, hi2⟩ = L.get ⟨i, hi⟩) ∧
      ((backfill_wallet_ages L m k now).1.get ⟨i, hi2⟩).is_young =
        (L.get ⟨i, hi⟩).is_young ∧
      ((backfill_wallet_ages L m k now).1.get ⟨i, hi2⟩ ≠ L.get ⟨i, hi⟩ →
        L.length - k ≤ i ∧
        ∃ v : ℤ, (L.get ⟨i, hi⟩).wallet_first_ts = none ∧
          lookupA m (pyLower (L.get ⟨i, hi⟩).taker) = some (some v) ∧
          (backfill_wallet_ages L m k now).1.get ⟨i, hi2⟩ =
            { L.get ⟨i, hi⟩ with
                wallet_first_ts := some v
                wallet_first_iso := some v
                wallet_age_days := some (((now : ℚ) - (v : ℚ)) / 86400) })) ∧
    (backfill_wallet_ages L m k now).2 =
      (L.drop (L.length - k)).countP (fun r => decide ((patchRow now m r).1 ≠ r)) ∧
    (backfill_wallet_ages (backfill_wallet_ages L m k now).1 m k now2).2 = 0 ∧
    (backfill_wallet_ages [scenarioDRec] [("0xdef", some 500)] 10 86900 =
      ([{ scenarioDRec with
            wallet_first_ts := some 500
            wallet_first_iso := some 500
            wallet_age_days := some ((((86900 : ℤ) : ℚ) - ((500 : ℤ) : ℚ)) / 86400) }], 1) ∧
      (backfill_wallet_ages
        (backfill_wallet_ages [scenarioDRec] [("0xdef", some 500)] 10 86900).1
        [("0xdef", some 500)] 10 86900).2 = 0) := by
  have hlen := backfill_length L m k now
  refine ⟨hlen, ?_, ?_, ?_, ?_, by rfl, by rfl⟩
  · -- untouched take-side
    simp only [backfill_wallet_ages]
    exact List.take_left' (by simp)
  · intro i hi hi2
    rw [backfill_get L m k now i hi hi2]
    by_cases h : i < L.length - k
    · rw [if_pos h]
      exact ⟨fun _ => rfl, rfl, fun hne => absurd rfl hne⟩
    · rw [if_neg h]
      refine ⟨fun hsome => by rw [patchRow_of_some now m _ hsome],
        patchRow_is_young now m _, fun hne => ⟨by omega, ?_⟩⟩
      rcases patchRow_cases now m (L.get ⟨i, hi⟩) with hc | ⟨v, hf, hl, hc⟩
      · exact absurd (by rw [hc]) hne
      · exact ⟨v, hf, hl, by rw [hc]⟩
  · -- returned count
    exact sum_patch_counts now m _
  · -- idempotence
    have hdrop :
        ((L.take (L.length - k) ++
          (L.drop (L.length - k)).map (fun r => (patchRow now m r).1)).drop (L.length - k)) =
          (L.drop (L.length - k)).map (fun r => (patchRow now m r).1) :=
      List.drop_left' (by simp)
    have hsnd : (backfill_wallet_ages (backfill_wallet_ages L m k now).1 m k now2).2 =
        (((backfill_wallet_ages L m k now).1.drop
          ((backfill_wallet_ages L m k now).1.length - k)).map
            (fun r => (patchRow now2 m r).2)).sum := rfl
    have hfst : (backfill_wallet_ages L m k now).1 =
        L.take (L.length - k) ++
          (L.drop (L.length - k)).map (fun r => (patchRow now m r).1) := rfl
    rw [hsnd, hlen, hfst, hdrop, List.map_map]
    refine List.sum_eq_zero ?_
    intro x hx
    rcases List.mem_map.mp hx with ⟨r, _, hr⟩
    rw [← hr]
    exact patchRow_idem now now2 m r

/-- Witness for `backfill_ages_contract`: on the already-patched Scenario
D ledger, the record (whose first-seen is now non-null) is returned
unchanged by the next sweep. -/
theorem backfill_ages_contract_witness :
    (backfill_wallet_ages
        [{ scenarioDRec with
            wallet_first_ts := some 500
            wallet_first_iso := some 500 }]
        [("0xdef", some 500)] 10 86900).1.get ⟨0, by rw [backfill_length]; decide⟩ =
      { scenarioDRec with wallet_first_ts := some 500, wallet_first_iso := some 500 } :=
  ((backfill_ages_contract
      [{ scenarioDRec with wallet_first_ts := some 500, wallet_first_iso := some 500 }]
      [("0xdef", some 500)] 10 86900 86900).2.2.1 0 (by decide)
      (by rw [backfill_length]; decide)).1 (by decide)

/-! ### C5: `get_above_threshold_df` -/

/-- The young/old/unknown classification used by the query: unknown
(unresolved by the supplied map) is optimistically young. -/
def isYoungR (now max_age_days : ℤ) (m : List (String × Option ℤ)) (w : String) : Bool :=
  match getAge m w with
  | none => true
  | some e => decide (e ≥ now - max_age_days * 86400)

/-- The row built from one aggregate entry (given that it qualifies). -/
def mkQueryRow (now max_age_days : ℤ) (m : List (String × Option ℤ))
    (p : AccumKey × Sums) : OutRow :=
  match getAge m p.1.1 with
  | none => ⟨p.1.1, p.1.2.1, p.1.2.2, p.2.notional, p.2.qty, p.2.trades, true, none, none⟩
  | some e =>
    ⟨p.1.1, p.1.2.1, p.1.2.2, p.2.notional, p.2.qty, p.2.trades,
      decide (e ≥ now - max_age_days * 86400), some e,
      some (((now : ℚ) - (e : ℚ)) / 86400)⟩

theorem rowOf_eq (now : ℤ) (threshold : ℚ) (m : List (String × Option ℤ))
    (max_age_days : ℤ) (show_all_gray_old : Bool) (p : AccumKey × Sums) :
    rowOf now threshold m max_age_days show_all_gray_old p =
      if p.2.notional ≥ threshold ∧
          (show_all_gray_old = true ∨ isYoungR now max_age_days m p.1.1 = true) then
        some (mkQueryRow now max_age_days m p)
      else none := by
  unfold rowOf mkQueryRow isYoungR
  by_cases ht : p.2.notional ≥ threshold
  · cases hj : getAge m p.1.1 with
    | none => simp [ht, hj]
    | some e =>
      by_cases hy : e ≥ now - max_age_days * 86400
      · cases show_all_gray_old <;> simp [ht, hj, hy]
      · cases show_all_gray_old <;> simp [ht, hj, hy]
  · simp [ht]

/-- Claim **C5** (confirmed). `queryAboveThreshold` contract: a row appears in
the result exactly for the aggregate entries whose notional sum meets the
threshold and which pass the young/`includeOld` gate (so an old key is
included only when `show_all_gray_old` is set); a wallet the supplied map
does not resolve is classified young and its qualifying entries are
always included; and the result is sorted by notional descending with
ties broken by trade count descending. -/
theorem query_above_threshold_contract (a : RollingAccumulator) (threshold : ℚ)
    (m : List (String × Option ℤ)) (max_age_days : ℤ) (show_all_gray_old : Bool)
    (now : ℤ) :
    (∀ r : OutRow,
      r ∈ a.get_above_threshold_df threshold m max_age_days show_all_gray_old now ↔
        ∃ p ∈ a.sums, p.2.notional ≥ threshold ∧
          (show_all_gray_old = true ∨ isYoungR now max_age_days m p.1.1 = true) ∧
          r = mkQueryRow now max_age_days m p) ∧
    (∀ p ∈ a.sums, p.2.notional ≥ threshold →
      getAge m p.1.1 = none →
        mkQueryRow now max_age_days m p ∈
          a.get_above_threshold_df threshold m max_age_days show_all_gray_old now ∧
        (mkQueryRow now max_age_days m p).is_young = true) ∧
    List.Sorted rowLE
      (a.get_above_threshold_df threshold m max_age_days show_all_gray_old now) := by
  refine ⟨?_, ?_, ?_⟩
  · intro r
    unfold RollingAccumulator.get_above_threshold_df
    rw [List.mem_insertionSort, List.mem_filterMap]
    constructor
    · rintro ⟨p, hp, hr⟩
      rw [rowOf_eq] at hr
      split at hr
      · next hcond => exact ⟨p, hp, hcond.1, hcond.2, (Option.some_inj.mp hr).symm⟩
      · exact absurd hr (by simp)
    · rintro ⟨p, hp, h1, h2, h3⟩
      refine ⟨p, hp, ?_⟩
      rw [rowOf_eq, if_pos ⟨h1, h2⟩, h3]
  · intro p hp ht hj
    have hy : isYoungR now max_age_days m p.1.1 = true := by
      unfold isYoungR; rw [hj]
    constructor
    · unfold RollingAccumulator.get_above_threshold_df
      rw [List.mem_insertionSort, List.mem_filterMap]
      exact ⟨p, hp, by rw [rowOf_eq, if_pos ⟨ht, Or.inr hy⟩]⟩
    · unfold mkQueryRow
      rw [hj]
  · exact List.sorted_insertionSort rowLE _

/-- Witness for `query_above_threshold_contract`: a single aggregate
entry over the threshold whose wallet the map does not resolve is
included and classified young. -/
theorem query_above_threshold_contract_witness :
    mkQueryRow 1000 7 [] (("0xw", "Yes", "mkt"), ⟨100, 1, 1⟩) ∈
      RollingAccumulator.get_above_threshold_df
        ⟨86400, [], [(("0xw", "Yes", "mkt"), ⟨100, 1, 1⟩)]⟩ 50 [] 7 false 1000 ∧
    (mkQueryRow 1000 7 [] (("0xw", "Yes", "mkt"), ⟨100, 1, 1⟩)).is_young = true :=
  (query_above_threshold_contract ⟨86400, [], [(("0xw", "Yes", "mkt"), ⟨100, 1, 1⟩)]⟩
      50 [] 7 false 1000).2.1 (("0xw", "Yes", "mkt"), ⟨100, 1, 1⟩)
    (List.mem_singleton.mpr rfl) (by norm_num) rfl

/-! ### C2: `RollingAccumulator` window-sum invariant -/

/-- An operation on the aggregator: `add_trade` or `purge_old`. -/
inductive AccOp where
  | addT (r : Rec) : AccOp
  | purge (now_ts : ℤ) : AccOp

/-- Apply one aggregator operation. -/
def applyAccOp (a : RollingAccumulator) : AccOp → RollingAccumulator
  | .addT r => a.add_trade r
  | .purge n => a.purge_old n

/-- Apply a sequence of aggregator operations. -/
def applyAccOps (a : RollingAccumulator) : List AccOp → RollingAccumulator
  | [] => a
  | op :: t => applyAccOps (applyAccOp a op) t

/-- Number of deque records with a given key. -/
def keyCount (l : List Rec) (k : AccumKey) : ℕ :=
  l.countP (fun r => decide (keyOf r = k))

/-- The reference sums, independently recomputed over exactly the deque
records with the given key. -/
def windowSums (l : List Rec) (k : AccumKey) : Sums :=
  ⟨((l.filter (fun r => decide (keyOf r = k))).map (fun r => r.notional.getD 0)).sum,
    ((l.filter (fun r => decide (keyOf r = k))).map (fun r => r.size.getD 0)).sum,
    (keyCount l k : ℤ)⟩

/-- The aggregator's map invariant: a key is present exactly when it has
records in the deque, and then its stored sums are the recomputed sums. -/
def AccInv (a : RollingAccumulator) : Prop :=
  ∀ k : AccumKey, lookupA a.sums k =
    if keyCount a.dq k ≠ 0 then some (windowSums a.dq k) else none

theorem windowSums_zero (l : List Rec) (k : AccumKey) (h : keyCount l k = 0) :
    windowSums l k = ⟨0, 0, 0⟩ := by
  have hf : l.filter (fun r => decide (keyOf r = k)) = [] :=
    List.filter_eq_nil_iff.mpr (by
      intro r hr hp
      exact absurd (List.countP_eq_zero.mp h r hr) (by simp [of_decide_eq_true hp]))
  unfold windowSums keyCount
  unfold keyCount at h
  rw [hf, h]
  rfl

theorem keyCount_append_single (l : List Rec) (r : Rec) (k : AccumKey) :
    keyCount (l ++ [r]) k = keyCount l k + if keyOf r = k then 1 else 0 := by
  unfold keyCount
  rw [List.countP_append]
  by_cases h : keyOf r = k <;> simp [List.countP_cons, h]

theorem windowSums_append_pos (l : List Rec) (r : Rec) (k : AccumKey)
    (h : keyOf r = k) :
    windowSums (l ++ [r]) k =
      ⟨(windowSums l k).notional + r.notional.getD 0,
        (windowSums l k).qty + r.size.getD 0,
        (windowSums l k).trades + 1⟩ := by
  unfold windowSums
  rw [List.filter_append, keyCount_append_single l r k]
  simp [h]

theorem windowSums_append_neg (l : List Rec) (r : Rec) (k : AccumKey)
    (h : ¬ keyOf r = k) :
    windowSums (l ++ [r]) k = windowSums l k := by
  unfold windowSums
  rw [List.filter_append, keyCount_append_single l r k]
  simp [h]

theorem keyCount_cons (r : Rec) (t : List Rec) (k : AccumKey) :
    keyCount (r :: t) k = keyCount t k + if keyOf r = k then 1 else 0 := by
  unfold keyCount
  by_cases h : keyOf r = k <;> simp [List.countP_cons, h]

theorem windowSums_cons_pos (r : Rec) (t : List Rec) (k : AccumKey) (h : keyOf r = k) :
    windowSums (r :: t) k =
      ⟨r.notional.getD 0 + (windowSums t k).notional,
        r.size.getD 0 + (windowSums t k).qty,
        (windowSums t k).trades + 1⟩ := by
  unfold windowSums
  rw [keyCount_cons]
  simp [List.filter_cons, h]

theorem windowSums_cons_neg (r : Rec) (t : List Rec) (k : AccumKey) (h : ¬ keyOf r = k) :
    windowSums (r :: t) k = windowSums t k := by
  unfold windowSums
  rw [keyCount_cons]
  simp [List.filter_cons, h]

theorem accInv_add (a : RollingAccumulator) (r : Rec) (h : AccInv a) :
    AccInv (a.add_trade r) := by
  unfold RollingAccumulator.add_trade
  cases hts : r.timestamp with
  | none => exact h
  | some ts =>
    intro k
    simp only
    by_cases hk : keyOf r = k
    · rw [← hk] at *
      rw [lookupA_updA_self]
      have hcnt := keyCount_append_single a.dq r (keyOf r)
      rw [if_pos rfl] at hcnt
      have hws := windowSums_append_pos a.dq r (keyOf r) rfl
      have hkey := h (keyOf r)
      by_cases hc : keyCount a.dq (keyOf r) ≠ 0
      · rw [if_pos hc] at hkey
        rw [hkey, if_pos (by omega)]
        simp only [Option.getD_some]
        rw [hws]
      · rw [if_neg hc] at hkey
        push_neg at hc
        rw [hkey, if_pos (by omega)]
        simp only [Option.getD_none]
        rw [hws, windowSums_zero a.dq (keyOf r) hc]
    · rw [lookupA_updA_ne _ _ _ _ _ (fun he => hk he.symm)]
      have hcnt := keyCount_append_single a.dq r k
      rw [if_neg hk] at hcnt
      rw [windowSums_append_neg a.dq r k hk, h k, hcnt]
      simp

theorem accInv_popLeft (sums : List (AccumKey × Sums)) (r : Rec) (t : List Rec)
    (h : ∀ k, lookupA sums k =
      if keyCount (r :: t) k ≠ 0 then some (windowSums (r :: t) k) else none) :
    ∀ k, lookupA (popLeftApply sums r) k =
      if keyCount t k ≠ 0 then some (windowSums t k) else none := by
  have hcnt := keyCount_cons r t (keyOf r)
  rw [if_pos rfl] at hcnt
  have hlook : lookupA sums (keyOf r) = some (windowSums (r :: t) (keyOf r)) := by
    rw [h (keyOf r), if_pos (by omega)]
  have hws := windowSums_cons_pos r t (keyOf r) rfl
  unfold popLeftApply
  rw [hlook]
  simp only
  rw [hws]
  dsimp only
  have e1 : r.notional.getD 0 + (windowSums t (keyOf r)).notional - r.notional.getD 0 =
      (windowSums t (keyOf r)).notional := by ring
  have e2 : r.size.getD 0 + (windowSums t (keyOf r)).qty - r.size.getD 0 =
      (windowSums t (keyOf r)).qty := by ring
  have e3 : (windowSums t (keyOf r)).trades + 1 - 1 =
      (windowSums t (keyOf r)).trades := by ring
  rw [e1, e2, e3]
  by_cases hz : keyCount t (keyOf r) = 0
  · have hzero : windowSums t (keyOf r) = ⟨0, 0, 0⟩ := windowSums_zero t (keyOf r) hz
    rw [hzero]
    rw [if_pos ⟨by norm_num [accumEps], by norm_num [accumEps], le_refl 0⟩]
    intro k
    by_cases hk : keyOf r = k
    · rw [← hk, lookupA_eraseA_self, if_neg (by omega)]
    · rw [lookupA_eraseA_ne _ _ _ (fun he => hk he.symm), h k,
        keyCount_cons r t k, if_neg hk, windowSums_cons_neg r t k hk]
      simp
  · have htr : (windowSums t (keyOf r)).trades = (keyCount t (keyOf r) : ℤ) := rfl
    rw [if_neg (by
      intro hcond
      have := hcond.2.2
      rw [htr] at this
      omega)]
    intro k
    by_cases hk : keyOf r = k
    · rw [← hk, lookupA_updA_self, if_pos hz]
    · rw [lookupA_updA_ne _ _ _ _ _ (fun he => hk he.symm), h k,
        keyCount_cons r t k, if_neg hk, windowSums_cons_neg r t k hk]
      simp

theorem accInv_purgeLoop (cutoff : ℤ) (dq : List Rec) :
    ∀ sums : List (AccumKey × Sums),
    (∀ k, lookupA sums k =
      if keyCount dq k ≠ 0 then some (windowSums dq k) else none) →
    ∀ k, lookupA (purgeLoop cutoff dq sums).2 k =
      if keyCount (purgeLoop cutoff dq sums).1 k ≠ 0 then
        some (windowSums (purgeLoop cutoff dq sums).1 k)
      else none := by
  induction dq with
  | nil => intro sums h k; exact h k
  | cons r t ih =>
    intro sums h k
    unfold purgeLoop
    by_cases hts : r.timestamp.getD 0 < cutoff
    · rw [if_pos hts]
      exact ih (popLeftApply sums r) (accInv_popLeft sums r t h) k
    · rw [if_neg hts]
      exact h k

theorem accInv_applyAccOps (ops : List AccOp) :
    ∀ a : RollingAccumulator, AccInv a → AccInv (applyAccOps a ops) := by
  induction ops with
  | nil => intro a h; exact h
  | cons op t ih =>
    intro a h
    refine ih (applyAccOp a op) ?_
    cases op with
    | addT r => exact accInv_add a r h
    | purge n =>
      intro k
      exact accInv_purgeLoop (n - a.window_sec) a.dq a.sums h k

/-- The Scenario B trade: notional 100 at t=0 for key
`("0xk", "Yes", "m")`. -/
def recB1 : Rec :=
  { time := none, timestamp := some 0, side := none, outcome := some "Yes"
    price := none, size := some 1, notional := some 100, tx := "t1", taker := "0xk"
    wallet_first_ts := none, wallet_first_iso := none, wallet_age_days := none
    is_young := true, slug := "m" }

/-- The second Scenario B trade: notional 50 at t=10, same key. -/
def recB2 : Rec := { recB1 with timestamp := some 10, notional := some 50, tx := "t2" }

/-- Claim **C2** (counterexample to the claim as stated). With window 3600s:
add notional 100 at t=0 for key K, purge at now=7201 (cutoff 3601, K's
record leaves and K is removed), then add the same t=0 trade again. The
stored notional sum for K is 100 — it agrees with the records currently
held in the deque — but the sum over the deque records for K with
timestamp ≥ the most recent purge cutoff (3601) is 0, refuting the
claim's "(equivalently, the records for that key with timestamp >= the
most recent purge cutoff)". -/
theorem window_cutoff_equiv_fails :
    (lookupA (applyAccOps (RollingAccumulator.mk0 3600)
      [.addT recB1, .purge 7201, .addT recB1]).sums ("0xk", "Yes", "m")).map
        Sums.notional = some 100 ∧
    (((applyAccOps (RollingAccumulator.mk0 3600)
      [.addT recB1, .purge 7201, .addT recB1]).dq.filter
        (fun r => decide (3601 ≤ r.timestamp.getD 0))).map
          (fun r => r.notional.getD 0)).sum = 0 ∧
    (100 : ℚ) ≠ 0 := by
  refine ⟨?_, ?_, by norm_num⟩ <;>
    norm_num [applyAccOps, applyAccOp, RollingAccumulator.add_trade,
      RollingAccumulator.purge_old, RollingAccumulator.mk0, purgeLoop, popLeftApply,
      updA, lookupA, eraseA, keyOf, accumEps, recB1, List.filter]

/-- Claim **C2** (amended: the parenthetical timestamp-cutoff equivalence is
dropped; see `window_cutoff_equiv_fails`). After any sequence of
`add_trade`/`purge_old` calls on a fresh aggregator, every key's map
entry is exactly characterized by the deque: the key is present iff it
has records in the deque, and its stored sums then equal the
independently recomputed notional/size/count sums over exactly those
records — in particular a key is removed from the map entirely once its
records (hence its sums) are gone. Scenario B (window 3600): adding
notional 100 at t=0 and 50 at t=10 for key K, then purging at now=3605
(cutoff 5) leaves K with notional sum 50; purging at now=7201 (cutoff
3601) then removes K from the map entirely. -/
theorem window_aggregator_sums_invariant (w : ℤ) (ops : List AccOp) (k : AccumKey) :
    (lookupA (applyAccOps (RollingAccumulator.mk0 w) ops).sums k =
      if keyCount (applyAccOps (RollingAccumulator.mk0 w) ops).dq k ≠ 0 then
        some (windowSums (applyAccOps (RollingAccumulator.mk0 w) ops).dq k)
      else none) ∧
    ((lookupA (applyAccOps (RollingAccumulator.mk0 3600)
      [.addT recB1, .addT recB2, .purge 3605]).sums ("0xk", "Yes", "m")).map
        Sums.notional = some 50 ∧
      lookupA (applyAccOps (RollingAccumulator.mk0 3600)
        [.addT recB1, .addT recB2, .purge 3605, .purge 7201]).sums
          ("0xk", "Yes", "m") = none) := by
  refine ⟨accInv_applyAccOps ops (RollingAccumulator.mk0 w) (fun k0 => by
    simp [RollingAccumulator.mk0, keyCount]) k, ?_, ?_⟩ <;>
    norm_num [applyAccOps, applyAccOp, RollingAccumulator.add_trade,
      RollingAccumulator.purge_old, RollingAccumulator.mk0, purgeLoop, popLeftApply,
      updA, lookupA, eraseA, keyOf, accumEps, recB1, recB2]

/-! ### Cycle-level lemmas (C1, C4, C8, C10) -/

theorem updTsSeen_seen (st : RunSt) (tr : Trade) : (updTsSeen st tr).seen = st.seen := by
  unfold updTsSeen; cases tr.ts <;> rfl

theorem updTsSeen_trades (st : RunSt) (tr : Trade) : (updTsSeen st tr).trades = st.trades := by
  unfold updTsSeen; cases tr.ts <;> rfl

theorem updTsSeen_cache (st : RunSt) (tr : Trade) : (updTsSeen st tr).cache = st.cache := by
  unfold updTsSeen; cases tr.ts <;> rfl

theorem updTsSeen_accum (st : RunSt) (tr : Trade) : (updTsSeen st tr).accum = st.accum := by
  unfold updTsSeen; cases tr.ts <;> rfl

theorem updTsSeen_activity (st : RunSt) (tr : Trade) :
    (updTsSeen st tr).activity_lookups = st.activity_lookups := by
  unfold updTsSeen; cases tr.ts <;> rfl

theorem updTsSeen_lookups_left (st : RunSt) (tr : Trade) :
    (updTsSeen st tr).lookups_left = st.lookups_left := by
  unfold updTsSeen; cases tr.ts <;> rfl

theorem updTsSeen_new_after_dedupe (st : RunSt) (tr : Trade) :
    (updTsSeen st tr).new_after_dedupe = st.new_after_dedupe := by
  unfold updTsSeen; cases tr.ts <;> rfl

theorem updTsSeen_appended (st : RunSt) (tr : Trade) :
    (updTsSeen st tr).appended = st.appended := by
  unfold updTsSeen; cases tr.ts <;> rfl

theorem classifyAppend_seen (cfg : FetchCfg) (now : ℤ) (tr : Trade) (tx taker : String)
    (st : RunSt) (e : Option ℤ) :
    (classifyAppend cfg now tr tx taker st e).seen = st.seen := by
  unfold classifyAppend; cases e <;> rfl

theorem classifyAppend_cache (cfg : FetchCfg) (now : ℤ) (tr : Trade) (tx taker : String)
    (st : RunSt) (e : Option ℤ) :
    (classifyAppend cfg now tr tx taker st e).cache = st.cache := by
  unfold classifyAppend; cases e <;> rfl

theorem classifyAppend_activity (cfg : FetchCfg) (now : ℤ) (tr : Trade) (tx taker : String)
    (st : RunSt) (e : Option ℤ) :
    (classifyAppend cfg now tr tx taker st e).activity_lookups = st.activity_lookups := by
  unfold classifyAppend; cases e <;> rfl

theorem classifyAppend_lookups_left (cfg : FetchCfg) (now : ℤ) (tr : Trade) (tx taker : String)
    (st : RunSt) (e : Option ℤ) :
    (classifyAppend cfg now tr tx taker st e).lookups_left = st.lookups_left := by
  unfold classifyAppend; cases e <;> rfl

theorem classifyAppend_new_after_dedupe (cfg : FetchCfg) (now : ℤ) (tr : Trade)
    (tx taker : String) (st : RunSt) (e : Option ℤ) :
    (classifyAppend cfg now tr tx taker st e).new_after_dedupe = st.new_after_dedupe := by
  unfold classifyAppend; cases e <;> rfl

theorem classifyAppend_appended (cfg : FetchCfg) (now : ℤ) (tr : Trade) (tx taker : String)
    (st : RunSt) (e : Option ℤ) :
    (classifyAppend cfg now tr tx taker st e).appended = st.appended + 1 := by
  unfold classifyAppend; cases e <;> rfl

theorem classifyAppend_trades (cfg : FetchCfg) (now : ℤ) (tr : Trade) (tx taker : String)
    (st : RunSt) (e : Option ℤ) :
    ∃ rec : Rec, rec.tx = tx ∧
      (classifyAppend cfg now tr tx taker st e).trades = st.trades ++ [rec] := by
  unfold classifyAppend
  cases e with
  | none => exact ⟨_, rfl, rfl⟩
  | some v => exact ⟨_, rfl, rfl⟩

theorem processTrade_tx_none (cfg : FetchCfg) (pr : List String)
    (f : String → Option ℤ) (now : ℤ) (st : RunSt) (raw : RawTrade)
    (h : (normalize_trade raw).tx = none) :
    processTrade cfg pr f now st raw = updTsSeen st (normalize_trade raw) := by
  simp only [processTrade, h]

theorem processTrade_tx_empty (cfg : FetchCfg) (pr : List String)
    (f : String → Option ℤ) (now : ℤ) (st : RunSt) (raw : RawTrade)
    (h : (normalize_trade raw).tx = some "") :
    processTrade cfg pr f now st raw = updTsSeen st (normalize_trade raw) := by
  simp only [processTrade, h]
  simp

theorem processTrade_seen_skip (cfg : FetchCfg) (pr : List String)
    (f : String → Option ℤ) (now : ℤ) (st : RunSt) (raw : RawTrade) (tx : String)
    (h : (normalize_trade raw).tx = some tx) (hne : tx ≠ "")
    (hseen : st.seen.has tx = true) :
    processTrade cfg pr f now st raw = updTsSeen st (normalize_trade raw) := by
  simp only [processTrade, h, hne, updTsSeen_seen, hseen]
  simp

theorem processTrade_non_wallet (cfg : FetchCfg) (pr : List String)
    (f : String → Option ℤ) (now : ℤ) (st : RunSt) (raw : RawTrade) (tx : String)
    (h : (normalize_trade raw).tx = some tx) (hne : tx ≠ "")
    (hseen : st.seen.has tx = false)
    (hw : pyStarts (pyLower ((normalize_trade raw).taker.getD "")) "0x" = false) :
    processTrade cfg pr f now st raw =
      { updTsSeen st (normalize_trade raw) with
        new_after_dedupe := st.new_after_dedupe + 1
        seen := st.seen.add tx } := by
  simp only [processTrade, h, hne, updTsSeen_seen, hseen, hw, updTsSeen_new_after_dedupe]
  simp

theorem processTrade_wallet_lookup (cfg : FetchCfg) (pr : List String)
    (f : String → Option ℤ) (now : ℤ) (st : RunSt) (raw : RawTrade) (tx : String)
    (h : (normalize_trade raw).tx = some tx) (hne : tx ≠ "")
    (hseen : st.seen.has tx = false)
    (hw : pyStarts (pyLower ((normalize_trade raw).taker.getD "")) "0x" = true)
    (hcond : needLookup (st.cache.get now (pyLower ((normalize_trade raw).taker.getD ""))) ∧
      0 < st.lookups_left ∧
      (pyLower ((normalize_trade raw).taker.getD "") ∈ pr ∨
        st.lookups_left > cfg.max_lookups_per_cycle / 3)) :
    processTrade cfg pr f now st raw =
      classifyAppend cfg now (normalize_trade raw) tx
        (pyLower ((normalize_trade raw).taker.getD ""))
        { updTsSeen st (normalize_trade raw) with
          new_after_dedupe := st.new_after_dedupe + 1
          seen := st.seen.add tx
          lookups_left := st.lookups_left - 1
          activity_lookups := st.activity_lookups + 1
          cache := st.cache.set now (pyLower ((normalize_trade raw).taker.getD ""))
            (f (pyLower ((normalize_trade raw).taker.getD ""))) }
        (f (pyLower ((normalize_trade raw).taker.getD ""))) := by
  simp only [processTrade, h, hne, updTsSeen_seen, hseen, hw, updTsSeen_new_after_dedupe,
    updTsSeen_lookups_left, updTsSeen_activity, updTsSeen_cache]
  simp only [Bool.false_eq_true, if_false, ite_not, Bool.true_eq_false, ne_eq]
  rw [if_pos hcond]
  simp

theorem processTrade_wallet_cached (cfg : FetchCfg) (pr : List String)
    (f : String → Option ℤ) (now : ℤ) (st : RunSt) (raw : RawTrade) (tx : String)
    (h : (normalize_trade raw).tx = some tx) (hne : tx ≠ "")
    (hseen : st.seen.has tx = false)
    (hw : pyStarts (pyLower ((normalize_trade raw).taker.getD "")) "0x" = true)
    (hcond : ¬ (needLookup (st.cache.get now (pyLower ((normalize_trade raw).taker.getD ""))) ∧
      0 < st.lookups_left ∧
      (pyLower ((normalize_trade raw).taker.getD "") ∈ pr ∨
        st.lookups_left > cfg.max_lookups_per_cycle / 3))) :
    processTrade cfg pr f now st raw =
      classifyAppend cfg now (normalize_trade raw) tx
        (pyLower ((normalize_trade raw).taker.getD ""))
        { updTsSeen st (normalize_trade raw) with
          new_after_dedupe := st.new_after_dedupe + 1
          seen := st.seen.add tx }
        (cachedEarliest
          (st.cache.get now (pyLower ((normalize_trade raw).taker.getD "")))) := by
  simp only [processTrade, h, hne, updTsSeen_seen, hseen, hw, updTsSeen_new_after_dedupe,
    updTsSeen_cache, updTsSeen_lookups_left, updTsSeen_activity]
  simp only [Bool.false_eq_true, if_false, ite_not, Bool.true_eq_false, ne_eq]
  rw [if_neg hcond]
  simp

theorem processTrade_budget (cfg : FetchCfg) (pr : List String)
    (f : String → Option ℤ) (now : ℤ) (st : RunSt) (raw : RawTrade) :
    (processTrade cfg pr f now st raw).activity_lookups +
      (processTrade cfg pr f now st raw).lookups_left =
      st.activity_lookups + st.lookups_left := by
  cases htx : (normalize_trade raw).tx with
  | none =>
    rw [processTrade_tx_none cfg pr f now st raw htx, updTsSeen_activity,
      updTsSeen_lookups_left]
  | some tx =>
    by_cases hne : tx = ""
    · subst hne
      rw [processTrade_tx_empty cfg pr f now st raw htx, updTsSeen_activity,
        updTsSeen_lookups_left]
    · by_cases hseen : st.seen.has tx = true
      · rw [processTrade_seen_skip cfg pr f now st raw tx htx hne hseen,
          updTsSeen_activity, updTsSeen_lookups_left]
      · have hseen2 : st.seen.has tx = false := Bool.not_eq_true _ ▸ eq_false_of_ne_true hseen
        by_cases hw : pyStarts (pyLower ((normalize_trade raw).taker.getD "")) "0x" = true
        · by_cases hcond :
            needLookup (st.cache.get now (pyLower ((normalize_trade raw).taker.getD ""))) = true ∧
              0 < st.lookups_left ∧
              (pyLower ((normalize_trade raw).taker.getD "") ∈ pr ∨
                st.lookups_left > cfg.max_lookups_per_cycle / 3)
          · rw [processTrade_wallet_lookup cfg pr f now st raw tx htx hne hseen2 hw hcond,
              classifyAppend_activity, classifyAppend_lookups_left]
            have := hcond.2.1
            simp [updTsSeen_activity, updTsSeen_lookups_left]
            omega
          · rw [processTrade_wallet_cached cfg pr f now st raw tx htx hne hseen2 hw hcond,
              classifyAppend_activity, classifyAppend_lookups_left]
            simp [updTsSeen_activity, updTsSeen_lookups_left]
        · have hw2 : pyStarts (pyLower ((normalize_trade raw).taker.getD "")) "0x" = false :=
            eq_false_of_ne_true hw
          rw [processTrade_non_wallet cfg pr f now st raw tx htx hne hseen2 hw2]
          simp [updTsSeen_activity, updTsSeen_lookups_left]

theorem processTrade_lookup_admission (cfg : FetchCfg) (pr : List String)
    (f : String → Option ℤ) (now : ℤ) (st : RunSt) (raw : RawTrade)
    (h : (processTrade cfg pr f now st raw).activity_lookups ≠ st.activity_lookups) :
    needLookup (st.cache.get now (pyLower ((normalize_trade raw).taker.getD ""))) = true ∧
      0 < st.lookups_left ∧
      (pyLower ((normalize_trade raw).taker.getD "") ∈ pr ∨
        st.lookups_left > cfg.max_lookups_per_cycle / 3) := by
  by_contra hcond
  apply h
  cases htx : (normalize_trade raw).tx with
  | none => rw [processTrade_tx_none cfg pr f now st raw htx, updTsSeen_activity]
  | some tx =>
    by_cases hne : tx = ""
    · subst hne
      rw [processTrade_tx_empty cfg pr f now st raw htx, updTsSeen_activity]
    · by_cases hseen : st.seen.has tx = true
      · rw [processTrade_seen_skip cfg pr f now st raw tx htx hne hseen, updTsSeen_activity]
      · have hseen2 : st.seen.has tx = false := eq_false_of_ne_true hseen
        by_cases hw : pyStarts (pyLower ((normalize_trade raw).taker.getD "")) "0x" = true
        · rw [processTrade_wallet_cached cfg pr f now st raw tx htx hne hseen2 hw hcond,
            classifyAppend_activity]
          simp [updTsSeen_activity]
        · have hw2 : pyStarts (pyLower ((normalize_trade raw).taker.getD "")) "0x" = false :=
            eq_false_of_ne_true hw
          rw [processTrade_non_wallet cfg pr f now st raw tx htx hne hseen2 hw2]
          simp [updTsSeen_activity]

theorem processTrade_seen_trades (cfg : FetchCfg) (pr : List String)
    (f : String → Option ℤ) (now : ℤ) (st : RunSt) (raw : RawTrade) :
    ((processTrade cfg pr f now st raw).seen = st.seen ∧
      (processTrade cfg pr f now st raw).trades = st.trades) ∨
    ∃ tx, (normalize_trade raw).tx = some tx ∧ st.seen.has tx = false ∧
      (processTrade cfg pr f now st raw).seen = st.seen.add tx ∧
      ((processTrade cfg pr f now st raw).trades = st.trades ∨
        ∃ rec : Rec, rec.tx = tx ∧
          (processTrade cfg pr f now st raw).trades = st.trades ++ [rec]) := by
  cases htx : (normalize_trade raw).tx with
  | none =>
    exact Or.inl ⟨by rw [processTrade_tx_none cfg pr f now st raw htx, updTsSeen_seen],
      by rw [processTrade_tx_none cfg pr f now st raw htx, updTsSeen_trades]⟩
  | some tx =>
    by_cases hne : tx = ""
    · subst hne
      exact Or.inl ⟨by rw [processTrade_tx_empty cfg pr f now st raw htx, updTsSeen_seen],
        by rw [processTrade_tx_empty cfg pr f now st raw htx, updTsSeen_trades]⟩
    · by_cases hseen : st.seen.has tx = true
      · exact Or.inl
          ⟨by rw [processTrade_seen_skip cfg pr f now st raw tx htx hne hseen, updTsSeen_seen],
           by rw [processTrade_seen_skip cfg pr f now st raw tx htx hne hseen, updTsSeen_trades]⟩
      · have hseen2 : st.seen.has tx = false := eq_false_of_ne_true hseen
        refine Or.inr ⟨tx, rfl, hseen2, ?_⟩
        by_cases hw : pyStarts (pyLower ((normalize_trade raw).taker.getD "")) "0x" = true
        · by_cases hcond :
            needLookup (st.cache.get now (pyLower ((normalize_trade raw).taker.getD ""))) = true ∧
              0 < st.lookups_left ∧
              (pyLower ((normalize_trade raw).taker.getD "") ∈ pr ∨
                st.lookups_left > cfg.max_lookups_per_cycle / 3)
          · rw [processTrade_wallet_lookup cfg pr f now st raw tx htx hne hseen2 hw hcond]
            obtain ⟨rec, hrec, htr⟩ := classifyAppend_trades cfg now (normalize_trade raw) tx
              (pyLower ((normalize_trade raw).taker.getD ""))
              { updTsSeen st (normalize_trade raw) with
                new_after_dedupe := st.new_after_dedupe + 1
                seen := st.seen.add tx
                lookups_left := st.lookups_left - 1
                activity_lookups := st.activity_lookups + 1
                cache := st.cache.set now (pyLower ((normalize_trade raw).taker.getD ""))
                  (f (pyLower ((normalize_trade raw).taker.getD ""))) }
              (f (pyLower ((normalize_trade raw).taker.getD "")))
            rw [classifyAppend_seen, htr]
            exact ⟨by simp, Or.inr ⟨rec, hrec, by simp [updTsSeen_trades]⟩⟩
          · rw [processTrade_wallet_cached cfg pr f now st raw tx htx hne hseen2 hw hcond]
            obtain ⟨rec, hrec, htr⟩ := classifyAppend_trades cfg now (normalize_trade raw) tx
              (pyLower ((normalize_trade raw).taker.getD ""))
              { updTsSeen st (normalize_trade raw) with
                new_after_dedupe := st.new_after_dedupe + 1
                seen := st.seen.add tx }
              (cachedEarliest
                (st.cache.get now (pyLower ((normalize_trade raw).taker.getD ""))))
            rw [classifyAppend_seen, htr]
            exact ⟨by simp, Or.inr ⟨rec, hrec, by simp [updTsSeen_trades]⟩⟩
        · have hw2 : pyStarts (pyLower ((normalize_trade raw).taker.getD "")) "0x" = false :=
            eq_false_of_ne_true hw
          rw [processTrade_non_wallet cfg pr f now st raw tx htx hne hseen2 hw2]
          exact ⟨by simp, Or.inl (by simp [updTsSeen_trades])⟩

/-! ### C4: lookup budget and admission -/

theorem foldl_budget (cfg : FetchCfg) (pr : List String) (f : String → Option ℤ)
    (now : ℤ) (rows : List RawTrade) :
    ∀ st : RunSt,
      (rows.foldl (processTrade cfg pr f now) st).activity_lookups +
        (rows.foldl (processTrade cfg pr f now) st).lookups_left =
        st.activity_lookups + st.lookups_left := by
  induction rows with
  | nil => intro st; rfl
  | cons raw t ih =>
    intro st
    rw [List.foldl_cons, ih (processTrade cfg pr f now st raw),
      processTrade_budget cfg pr f now st raw]

/-- Claim **C4** (confirmed). (1) Budget: over one cycle the number of external
wallet lookups performed never exceeds the configured per-cycle budget.
(2) Admission: whenever a per-trade step performs a lookup (the lookup
counter moves), the trade's wallet had no cached age (cache miss, TTL
expiry, or a cached null), budget remained, and either the wallet was in
the priority set (top `min(200, count)` aggregate entries by descending
notional, as computed by `priorityWallets`) or the remaining budget
exceeded one third of the total. (3) The code's integer guard
`lookups_left > B / 3` (floor division) says exactly "remaining budget
exceeds one-third of the total budget" for integer budgets. -/
theorem lookup_budget_and_admission :
    (∀ (cfg : FetchCfg) (f : String → Option ℤ) (now : ℤ) (rows : List RawTrade)
      (fs : FetchSt),
      (runCycle cfg f now rows fs).2.activity_lookups ≤ cfg.max_lookups_per_cycle) ∧
    (∀ (cfg : FetchCfg) (A : RollingAccumulator) (f : String → Option ℤ) (now : ℤ)
      (st : RunSt) (raw : RawTrade),
      (processTrade cfg (priorityWallets A) f now st raw).activity_lookups ≠
        st.activity_lookups →
      needLookup (st.cache.get now (pyLower ((normalize_trade raw).taker.getD ""))) = true ∧
        0 < st.lookups_left ∧
        (pyLower ((normalize_trade raw).taker.getD "") ∈ priorityWallets A ∨
          st.lookups_left > cfg.max_lookups_per_cycle / 3)) ∧
    (∀ B l : ℕ, l > B / 3 ↔ ((l : ℚ) > (B : ℚ) / 3)) := by
  refine ⟨?_, ?_, ?_⟩
  · intro cfg f now rows fs
    have h := foldl_budget cfg (priorityWallets fs.accum) f now rows.reverse
      { seen := fs.seen, trades := fs.trades, cache := fs.cache, accum := fs.accum
        new_after_dedupe := 0, appended := 0, dropped_not_young := 0
        unknown_age_allowed := 0, activity_lookups := 0
        lookups_left := cfg.max_lookups_per_cycle
        first_ts_seen := none, last_ts_seen := none }
    have heq : (runCycle cfg f now rows fs).2.activity_lookups =
        (rows.reverse.foldl
          (processTrade cfg (priorityWallets fs.accum) f now)
          { seen := fs.seen, trades := fs.trades, cache := fs.cache, accum := fs.accum
            new_after_dedupe := 0, appended := 0, dropped_not_young := 0
            unknown_age_allowed := 0, activity_lookups := 0
            lookups_left := cfg.max_lookups_per_cycle
            first_ts_seen := none, last_ts_seen := none }).activity_lookups := rfl
    rw [heq]
    dsimp only at h
    omega
  · intro cfg A f now st raw h
    exact processTrade_lookup_admission cfg (priorityWallets A) f now st raw h
  · intro B l
    rw [gt_iff_lt, Nat.div_lt_iff_lt_mul (by norm_num), gt_iff_lt,
      div_lt_iff₀ (by norm_num : (0 : ℚ) < 3)]
    constructor
    · intro h; exact_mod_cast h
    · intro h; exact_mod_cast h

/-- The concrete step state for the C4 witness: fresh cache, budget 6 of
6 remaining. -/
def c4St : RunSt :=
  { seen := SeenRing.mk0 5, trades := [], cache := WalletAgeCache.mk0 21600
    accum := RollingAccumulator.mk0 86400, new_after_dedupe := 0, appended := 0
    dropped_not_young := 0, unknown_age_allowed := 0, activity_lookups := 0
    lookups_left := 6, first_ts_seen := none, last_ts_seen := none }

/-- The concrete raw trade for the C4/C10 witnesses. -/
def c4Raw : RawTrade :=
  ⟨some 1000, none, none, none, none, none, some "t1", some "0xAA", some "mkt"⟩

/-- Witness for `lookup_budget_and_admission`: on `c4St`/`c4Raw` a lookup
is performed, and the admission conditions are reported concretely. -/
theorem lookup_budget_and_admission_witness :
    needLookup (c4St.cache.get 1000 (pyLower ((normalize_trade c4Raw).taker.getD ""))) =
      true ∧
    0 < c4St.lookups_left ∧
    (pyLower ((normalize_trade c4Raw).taker.getD "") ∈
        priorityWallets (RollingAccumulator.mk0 86400) ∨
      c4St.lookups_left > (6 : ℕ) / 3) :=
  lookup_budget_and_admission.2.1 ⟨7, 6, 20000⟩ (RollingAccumulator.mk0 86400)
    (fun _ => some 5) 1000 c4St c4Raw (by decide)

/-! ### C10: dedup registration precedes the wallet filter -/

theorem SeenRing.add_has_self (r : SeenRing) (x : String) : (r.add x).has x = true := by
  refine (SeenRing.has_iff _ _).mpr ?_
  unfold SeenRing.add
  split
  · next h => exact (SeenRing.has_iff r x).mp h
  · split <;> exact List.mem_append_right _ (List.mem_singleton.mpr rfl)

/-- Claim **C10** (confirmed). Within a per-trade step: (1) a not-yet-seen
transaction id whose (lower-cased) taker is not 0x-prefixed is registered
in the dedup ring but never appended — the ledger, the aggregator and the
appended counter are untouched; (2) any trade whose id is currently in
the dedup ring is skipped entirely, leaving the whole state unchanged
except the per-cycle first/last-timestamp trackers; hence a
once-registered id is never processed again while it remains in the
bounded ring, even if it reappears in a later cycle's fetch. -/
theorem dedup_registered_before_wallet_filter :
    (∀ (cfg : FetchCfg) (pr : List String) (f : String → Option ℤ) (now : ℤ)
      (st : RunSt) (raw : RawTrade) (tx : String),
      (normalize_trade raw).tx = some tx → tx ≠ "" → st.seen.has tx = false →
      pyStarts (pyLower ((normalize_trade raw).taker.getD "")) "0x" = false →
      (processTrade cfg pr f now st raw).seen = st.seen.add tx ∧
      (processTrade cfg pr f now st raw).seen.has tx = true ∧
      (processTrade cfg pr f now st raw).trades = st.trades ∧
      (processTrade cfg pr f now st raw).accum = st.accum ∧
      (processTrade cfg pr f now st raw).appended = st.appended) ∧
    (∀ (cfg : FetchCfg) (pr : List String) (f : String → Option ℤ) (now : ℤ)
      (st : RunSt) (raw : RawTrade) (tx : String),
      (normalize_trade raw).tx = some tx → st.seen.has tx = true →
      processTrade cfg pr f now st raw = updTsSeen st (normalize_trade raw)) := by
  constructor
  · intro cfg pr f now st raw tx htx hne hseen hw
    rw [processTrade_non_wallet cfg pr f now st raw tx htx hne hseen hw]
    refine ⟨by simp, ?_, by simp [updTsSeen_trades], by simp [updTsSeen_accum],
      by simp [updTsSeen_appended]⟩
    have : ({ updTsSeen st (normalize_trade raw) with
        new_after_dedupe := st.new_after_dedupe + 1
        seen := st.seen.add tx } : RunSt).seen = st.seen.add tx := by simp
    rw [this]
    exact SeenRing.add_has_self st.seen tx
  · intro cfg pr f now st raw tx htx hseen
    by_cases hne : tx = ""
    · subst hne
      exact processTrade_tx_empty cfg pr f now st raw htx
    · exact processTrade_seen_skip cfg pr f now st raw tx htx hne hseen

/-- Witness for `dedup_registered_before_wallet_filter`: a fresh id with
the non-wallet taker "whale7" is registered as seen while the ledger,
aggregator and appended counter stay untouched. -/
theorem dedup_registered_before_wallet_filter_witness :
    (processTrade ⟨7, 6, 20000⟩ [] (fun _ => none) 1000 c4St
        ⟨some 1000, none, none, none, none, none, some "t1", some "whale7", some "mkt"⟩).seen =
      c4St.seen.add "t1" ∧
    (processTrade ⟨7, 6, 20000⟩ [] (fun _ => none) 1000 c4St
        ⟨some 1000, none, none, none, none, none, some "t1", some "whale7", some "mkt"⟩).seen.has
      "t1" = true ∧
    (processTrade ⟨7, 6, 20000⟩ [] (fun _ => none) 1000 c4St
        ⟨some 1000, none, none, none, none, none, some "t1", some "whale7", some "mkt"⟩).trades =
      c4St.trades ∧
    (processTrade ⟨7, 6, 20000⟩ [] (fun _ => none) 1000 c4St
        ⟨some 1000, none, none, none, none, none, some "t1", some "whale7", some "mkt"⟩).accum =
      c4St.accum ∧
    (processTrade ⟨7, 6, 20000⟩ [] (fun _ => none) 1000 c4St
        ⟨some 1000, none, none, none, none, none, some "t1", some "whale7", some "mkt"⟩).appended =
      c4St.appended :=
  dedup_registered_before_wallet_filter.1 ⟨7, 6, 20000⟩ [] (fun _ => none) 1000 c4St
    ⟨some 1000, none, none, none, none, none, some "t1", some "whale7", some "mkt"⟩ "t1"
    rfl (by decide) (by decide) (by decide)

/-! ### C8: skip handling and (absence of) skip counters -/

/-- A fully-empty raw object: no timestamp, no transaction id. -/
def emptyRaw : RawTrade := ⟨none, none, none, none, none, none, none, none, none⟩

/-- Claim **C8** (counterexample to the claim as stated). Fetching a batch that
consists of one malformed trade (no transaction id) emits cycle metrics
identical to those of an empty batch except for `fetched_rows` — which
counts every fetched row, skipped or not. No counter is incremented for
the skipped record: malformed skips are not individually counted
anywhere in the emitted metrics. -/
theorem skip_counters_absent :
    (runCycle ⟨7, 60, 20000⟩ (fun _ => none) 1000 [emptyRaw]
        (initFetchSt 50000 21600 86400)).2 =
      { (runCycle ⟨7, 60, 20000⟩ (fun _ => none) 1000 []
          (initFetchSt 50000 21600 86400)).2 with fetched_rows := 1 } ∧
    (runCycle ⟨7, 60, 20000⟩ (fun _ => none) 1000 []
        (initFetchSt 50000 21600 86400)).2.fetched_rows = 0 := by
  constructor <;> decide

/-- Claim **C8** (amended: skips are never fatal and never touch the
ledger/aggregator, but there is no dedicated per-category skip counter —
only the aggregate `fetched_rows`/`new_after_dedupe`/`appended` metrics,
whose differences reflect the skips). (1) A malformed trade (no
transaction id) leaves the whole state unchanged except the
first/last-timestamp trackers. (2) A fresh non-wallet-shaped trade only
registers its id as seen and bumps `new_after_dedupe`. (3) `fetched_rows`
counts every fetched row regardless of skipping. -/
theorem skips_nonfatal_uncounted :
    (∀ (cfg : FetchCfg) (pr : List String) (f : String → Option ℤ) (now : ℤ)
      (st : RunSt) (raw : RawTrade),
      (normalize_trade raw).tx = none →
      processTrade cfg pr f now st raw = updTsSeen st (normalize_trade raw)) ∧
    (∀ (cfg : FetchCfg) (pr : List String) (f : String → Option ℤ) (now : ℤ)
      (st : RunSt) (raw : RawTrade) (tx : String),
      (normalize_trade raw).tx = some tx → tx ≠ "" → st.seen.has tx = false →
      pyStarts (pyLower ((normalize_trade raw).taker.getD "")) "0x" = false →
      processTrade cfg pr f now st raw =
        { updTsSeen st (normalize_trade raw) with
          new_after_dedupe := st.new_after_dedupe + 1
          seen := st.seen.add tx }) ∧
    (∀ (cfg : FetchCfg) (f : String → Option ℤ) (now : ℤ) (rows : List RawTrade)
      (fs : FetchSt), (runCycle cfg f now rows fs).2.fetched_rows = rows.length) :=
  ⟨fun cfg pr f now st raw h => processTrade_tx_none cfg pr f now st raw h,
   fun cfg pr f now st raw tx htx hne hseen hw =>
     processTrade_non_wallet cfg pr f now st raw tx htx hne hseen hw,
   fun _ _ _ _ _ => rfl⟩

/-- Witness for `skips_nonfatal_uncounted`: the malformed `emptyRaw` is
processed with no effect at all (it has no timestamp either, so even the
trackers are unchanged). -/
theorem skips_nonfatal_uncounted_witness :
    processTrade ⟨7, 60, 20000⟩ [] (fun _ => none) 1000 c4St emptyRaw =
      updTsSeen c4St (normalize_trade emptyRaw) :=
  skips_nonfatal_uncounted.1 ⟨7, 60, 20000⟩ [] (fun _ => none) 1000 c4St emptyRaw rfl

/-! ### C1: ledger transaction-id uniqueness -/

/-- All transaction ids occurring in a sequence of fetched batches. -/
def allTxIds (cycles : List (ℤ × List RawTrade)) : List String :=
  cycles.flatMap (fun c => c.2.filterMap RawTrade.transactionHash)

theorem SeenRing.has_eq_false_iff (r : SeenRing) (x : String) :
    r.has x = false ↔ x ∉ r.dq := by
  simp [SeenRing.has]

theorem SeenRing.add_append (r : SeenRing) (x : String) (hx : r.has x = false)
    (hlen : r.dq.length ≠ r.maxlen) : (r.add x).dq = r.dq ++ [x] := by
  unfold SeenRing.add
  simp [hx, hlen]

/-- The C1 induction invariant: the dedup ring is duplicate-free, holds
only ids drawn from the universe `U` of all fetched ids; the ledger's
transaction ids are duplicate-free and all still present in the ring; and
`U` fits inside the ring's capacity. -/
def C1Inv (U : Finset String) (seen : SeenRing) (trades : List Rec) : Prop :=
  seen.dq.Nodup ∧ (∀ t ∈ seen.dq, t ∈ U) ∧
  (trades.map Rec.tx).Nodup ∧ (∀ r ∈ trades, r.tx ∈ seen.dq) ∧
  U.card ≤ seen.maxlen

theorem c1inv_step (cfg : FetchCfg) (pr : List String) (f : String → Option ℤ)
    (now : ℤ) (U : Finset String) (st : RunSt) (raw : RawTrade)
    (hinv : C1Inv U st.seen st.trades)
    (htx : ∀ tx, raw.transactionHash = some tx → tx ∈ U) :
    C1Inv U (processTrade cfg pr f now st raw).seen
      (processTrade cfg pr f now st raw).trades := by
  obtain ⟨hnd, hU, hlnd, hl, hcard⟩ := hinv
  rcases processTrade_seen_trades cfg pr f now st raw with
    ⟨hseen, htrades⟩ | ⟨tx, htxeq, hfresh, hseen, htrades⟩
  · rw [hseen, htrades]; exact ⟨hnd, hU, hlnd, hl, hcard⟩
  · have htxU : tx ∈ U := htx tx htxeq
    have hnotmem : tx ∉ st.seen.dq := (SeenRing.has_eq_false_iff _ _).mp hfresh
    have hlen : st.seen.dq.length < st.seen.maxlen := by
      have hsub : st.seen.dq.toFinset ⊆ U.erase tx := by
        intro t ht
        have htdq := List.mem_toFinset.mp ht
        exact Finset.mem_erase.mpr ⟨fun he => hnotmem (he ▸ htdq), hU t htdq⟩
      have h1 : st.seen.dq.toFinset.card ≤ (U.erase tx).card := Finset.card_le_card hsub
      rw [List.toFinset_card_of_nodup hnd] at h1
      rw [Finset.card_erase_of_mem htxU] at h1
      have h2 : 0 < U.card := Finset.card_pos.mpr ⟨tx, htxU⟩
      omega
    have hadd : (st.seen.add tx).dq = st.seen.dq ++ [tx] :=
      SeenRing.add_append st.seen tx hfresh (by omega)
    have hmax : (st.seen.add tx).maxlen = st.seen.maxlen := SeenRing.add_maxlen _ _
    refine ⟨?_, ?_, ?_, ?_, ?_⟩
    · rw [hseen, hadd]
      simp [List.nodup_append, hnd, hnotmem]
    · rw [hseen, hadd]
      intro t ht
      rcases List.mem_append.mp ht with h1 | h1
      · exact hU t h1
      · rw [List.mem_singleton.mp h1]; exact htxU
    · rcases htrades with h1 | ⟨rec, hrec, h1⟩
      · rw [h1]; exact hlnd
      · rw [h1, List.map_append]
        have hnotl : tx ∉ st.trades.map Rec.tx := by
          intro hmem
          rcases List.mem_map.mp hmem with ⟨r, hr, hrtx⟩
          exact hnotmem (hrtx ▸ hl r hr)
        simp [List.nodup_append, hlnd, hrec, hnotl]
    · rcases htrades with h1 | ⟨rec, hrec, h1⟩
      · rw [h1, hseen, hadd]
        intro r hr
        exact List.mem_append_left _ (hl r hr)
      · rw [h1, hseen, hadd]
        intro r hr
        rcases List.mem_append.mp hr with h2 | h2
        · exact List.mem_append_left _ (hl r h2)
        · rw [List.mem_singleton.mp h2, hrec]
          exact List.mem_append_right _ (List.mem_singleton.mpr rfl)
    · rw [hseen, hmax]; exact hcard

theorem c1inv_fold (cfg : FetchCfg) (pr : List String) (f : String → Option ℤ)
    (now : ℤ) (U : Finset String) (rows : List RawTrade) :
    ∀ st : RunSt, C1Inv U st.seen st.trades →
    (∀ raw ∈ rows, ∀ tx, raw.transactionHash = some tx → tx ∈ U) →
    C1Inv U (rows.foldl (processTrade cfg pr f now) st).seen
      (rows.foldl (processTrade cfg pr f now) st).trades := by
  induction rows with
  | nil => intro st h _; exact h
  | cons raw t ih =>
    intro st h hmem
    rw [List.foldl_cons]
    exact ih (processTrade cfg pr f now st raw)
      (c1inv_step cfg pr f now U st raw h (hmem raw (List.mem_cons_self _ _)))
      (fun r hr => hmem r (List.mem_cons_of_mem _ hr))

theorem c1inv_cycle (cfg : FetchCfg) (f : String → Option ℤ) (now : ℤ)
    (U : Finset String) (rows : List RawTrade) (fs : FetchSt)
    (hinv : C1Inv U fs.seen fs.trades)
    (hmem : ∀ raw ∈ rows, ∀ tx, raw.transactionHash = some tx → tx ∈ U) :
    C1Inv U (runCycle cfg f now rows fs).1.seen (runCycle cfg f now rows fs).1.trades := by
  have hfold := c1inv_fold cfg (priorityWallets fs.accum) f now U rows.reverse
    { seen := fs.seen, trades := fs.trades, cache := fs.cache, accum := fs.accum
      new_after_dedupe := 0, appended := 0, dropped_not_young := 0
      unknown_age_allowed := 0, activity_lookups := 0
      lookups_left := cfg.max_lookups_per_cycle
      first_ts_seen := none, last_ts_seen := none }
    hinv (fun raw hraw => hmem raw (List.mem_reverse.mp hraw))
  obtain ⟨hnd, hU, hlnd, hl, hcard⟩ := hfold
  have hseen : (runCycle cfg f now rows fs).1.seen =
      (rows.reverse.foldl (processTrade cfg (priorityWallets fs.accum) f now)
        { seen := fs.seen, trades := fs.trades, cache := fs.cache, accum := fs.accum
          new_after_dedupe := 0, appended := 0, dropped_not_young := 0
          unknown_age_allowed := 0, activity_lookups := 0
          lookups_left := cfg.max_lookups_per_cycle
          first_ts_seen := none, last_ts_seen := none }).seen := rfl
  have htr : (runCycle cfg f now rows fs).1.trades =
      trim_history
        (rows.reverse.foldl (processTrade cfg (priorityWallets fs.accum) f now)
          { seen := fs.seen, trades := fs.trades, cache := fs.cache, accum := fs.accum
            new_after_dedupe := 0, appended := 0, dropped_not_young := 0
            unknown_age_allowed := 0, activity_lookups := 0
            lookups_left := cfg.max_lookups_per_cycle
            first_ts_seen := none, last_ts_seen := none }).trades
        cfg.history_max_rows := rfl
  rw [hseen, htr]
  unfold trim_history
  refine ⟨hnd, hU, ?_, ?_, hcard⟩
  · rw [List.map_drop]
    exact (List.drop_sublist _ _).nodup hlnd
  · intro r hr
    exact hl r (List.drop_subset _ _ hr)

theorem c1inv_cycles (cfg : FetchCfg) (f : String → Option ℤ) (U : Finset String)
    (cycles : List (ℤ × List RawTrade)) :
    ∀ fs : FetchSt, C1Inv U fs.seen fs.trades →
    (∀ c ∈ cycles, ∀ raw ∈ c.2, ∀ tx, raw.transactionHash = some tx → tx ∈ U) →
    C1Inv U (runCycles cfg f cycles fs).seen (runCycles cfg f cycles fs).trades := by
  induction cycles with
  | nil => intro fs h _; exact h
  | cons c t ih =>
    intro fs h hmem
    obtain ⟨now, rows⟩ := c
    exact ih (runCycle cfg f now rows fs).1
      (c1inv_cycle cfg f now U rows fs h
        (fun raw hraw => hmem (now, rows) (List.mem_cons_self _ _) raw hraw))
      (fun c2 hc2 => hmem c2 (List.mem_cons_of_mem _ hc2))

/-- Claim **C1** (amended: uniqueness holds as long as the dedup ring never has
to evict, i.e. while the number of distinct transaction ids ever fetched
stays within the ring's capacity; see
`ledger_tx_duplicate_after_eviction` for why the unconditional claim
fails). Under that bound, across any sequence of fetched batches over any
number of cycles — including batches whose contents repeat earlier ids —
every already-admitted id is skipped before append, and the Ledger never
holds two records with the same transaction id. -/
theorem ledger_nodup_within_capacity (cfg : FetchCfg) (f : String → Option ℤ)
    (N : ℕ) (ttl w : ℤ) (cycles : List (ℤ × List RawTrade))
    (hcard : (allTxIds cycles).toFinset.card ≤ N) :
    ((runCycles cfg f cycles (initFetchSt N ttl w)).trades.map Rec.tx).Nodup := by
  have h := c1inv_cycles cfg f (allTxIds cycles).toFinset cycles (initFetchSt N ttl w)
    ⟨List.nodup_nil, by simp [initFetchSt, SeenRing.mk0], List.nodup_nil,
      by simp [initFetchSt], by simpa [initFetchSt, SeenRing.mk0] using hcard⟩
    (by
      intro c hc raw hraw tx htx
      refine List.mem_toFinset.mpr (List.mem_flatMap.mpr ⟨c, hc, ?_⟩)
      exact List.mem_filterMap.mpr ⟨raw, hraw, htx⟩)
  exact h.2.2.1

/-- Trade "a" from wallet 0xAA, used in the C1 counterexample. -/
def trDupA : RawTrade :=
  ⟨some 1000, some 1, some 100, some "BUY", some "Yes", none, some "a", some "0xAA",
    some "mkt"⟩

/-- Trade "b" from wallet 0xBB, used in the C1 counterexample. -/
def trDupB : RawTrade :=
  ⟨some 1000, some 1, some 100, some "BUY", some "Yes", none, some "b", some "0xBB",
    some "mkt"⟩

set_option maxRecDepth 8000

/-- Claim **C1** (counterexample to the claim as stated). With a dedup ring of
capacity 1, one fetched batch carrying ids a, b, a (in processing order:
the cycle reverses the newest-first feed, so the batch is listed as
[a, b, a]) appends "a" twice: when "a" reappears, it has already been
evicted by "b", the `has` gate passes, and the Ledger ends with
transaction ids ["a", "b", "a"] — a duplicate. Bounded FIFO eviction
breaks process-lifetime uniqueness whenever more distinct ids than the
capacity intervene. -/
theorem ledger_tx_duplicate_after_eviction :
    ((runCycle ⟨7, 60, 20000⟩ (fun _ => none) 1000 [trDupA, trDupB, trDupA]
        (initFetchSt 1 21600 86400)).1.trades.map Rec.tx) = ["a", "b", "a"] ∧
    ¬ ((runCycle ⟨7, 60, 20000⟩ (fun _ => none) 1000 [trDupA, trDupB, trDupA]
        (initFetchSt 1 21600 86400)).1.trades.map Rec.tx).Nodup := by
  constructor <;> decide

/-- Witness for `ledger_nodup_within_capacity`: a single batch carrying
the one distinct id "a" into a capacity-2 ring yields a duplicate-free
ledger. -/
theorem ledger_nodup_within_capacity_witness :
    ((runCycles ⟨7, 60, 20000⟩ (fun _ => none) [(1000, [trDupA])]
        (initFetchSt 2 21600 86400)).trades.map Rec.tx).Nodup :=
  ledger_nodup_within_capacity ⟨7, 60, 20000⟩ (fun _ => none) 2 21600 86400
    [(1000, [trDupA])] (by decide)
